import Mathlib

/-!
# libhangul `hangulctype.c`: a shallow embedding and its verified properties

Codepoints (`ucschar`, an unsigned 32-bit integer) are natural numbers; every
arithmetic operation the C code performs on them is reduced modulo `2 ^ 32`.
`int` values are integers: every `int` the code computes lies between minus
the length of the source array and the larger of its arguments, so no
wrap-around of `int` is modelled.  A `const ucschar*` is the list of
codepoints stored from the pointer to the end of its array: reading past the
end of the list is undefined in C and is `none` here.
-/

namespace Hangul

/-! ## Unsigned 32-bit arithmetic -/

/-- Reduction of a natural number to the range of `ucschar`. -/
def wrap32 (n : Nat) : Nat := n % 2 ^ 32

/-- Unsigned 32-bit subtraction `a - b` of two `ucschar` values. -/
def sub32 (a b : Nat) : Nat := (a + 2 ^ 32 - b % 2 ^ 32) % 2 ^ 32

/-- Unsigned 32-bit addition. -/
def add32 (a b : Nat) : Nat := wrap32 (a + b)

/-- Unsigned 32-bit multiplication. -/
def mul32 (a b : Nat) : Nat := wrap32 (a * b)

/-! ## Constants (hangulctype.c, lines 32-37) -/

def hangul_base : Nat := 0xac00
def choseong_base : Nat := 0x1100
def jungseong_base : Nat := 0x1161
def jongseong_base : Nat := 0x11a7
def njungseong : Nat := 21
def njongseong : Nat := 28

/-! ## Classifier (lines 47-141) -/

def hangul_is_choseong (c : Nat) : Bool := c ≥ 0x1100 && c ≤ 0x1159

def hangul_is_jungseong (c : Nat) : Bool := c ≥ 0x1161 && c ≤ 0x11a2

def hangul_is_jongseong (c : Nat) : Bool := c ≥ 0x11a8 && c ≤ 0x11f9

def hangul_is_choseong_conjoinable (c : Nat) : Bool := c ≥ 0x1100 && c ≤ 0x1112

def hangul_is_jungseong_conjoinable (c : Nat) : Bool := c ≥ 0x1161 && c ≤ 0x1175

def hangul_is_jongseong_conjoinable (c : Nat) : Bool := c ≥ 0x11a7 && c ≤ 0x11c2

def hangul_is_syllable (c : Nat) : Bool := c ≥ 0xac00 && c ≤ 0xd7a3

def hangul_is_jaso (c : Nat) : Bool :=
  hangul_is_choseong c || hangul_is_jungseong c || hangul_is_jongseong c

def hangul_is_jamo (c : Nat) : Bool := c ≥ 0x3131 && c ≤ 0x318e

/-! ## Compatibility mapper (lines 143-342)

A static table is a list; the index `c - base` is computed in unsigned
32-bit arithmetic, and a read outside the table is `none`. -/

/-- Table `choseong` of `hangul_jaso_to_jamo`, for `0x1100 .. 0x1112`. -/
def jaso_to_jamo_choseong : List Nat :=
  [0x3131, 0x3132, 0x3134, 0x3137, 0x3138, 0x3139, 0x3141, 0x3142, 0x3143, 0x3145,
   0x3146, 0x3147, 0x3148, 0x3149, 0x314a, 0x314b, 0x314c, 0x314d, 0x314e]

/-- Table `jungseong` of `hangul_jaso_to_jamo`, for `0x1161 .. 0x1175`. -/
def jaso_to_jamo_jungseong : List Nat :=
  [0x314f, 0x3150, 0x3151, 0x3152, 0x3153, 0x3154, 0x3155, 0x3156, 0x3157, 0x3158,
   0x3159, 0x315a, 0x315b, 0x315c, 0x315d, 0x315e, 0x315f, 0x3160, 0x3161, 0x3162,
   0x3163]

/-- Table `jongseong` of `hangul_jaso_to_jamo`, for `0x11a8 .. 0x11c2`. -/
def jaso_to_jamo_jongseong : List Nat :=
  [0x3131, 0x3132, 0x3133, 0x3134, 0x3135, 0x3136, 0x3137, 0x3139, 0x313a, 0x313b,
   0x313c, 0x313d, 0x313e, 0x313f, 0x3140, 0x3141, 0x3142, 0x3144, 0x3145, 0x3146,
   0x3147, 0x3148, 0x314a, 0x314b, 0x314c, 0x314d, 0x314e]

/-- Function `hangul_jaso_to_jamo`. -/
def hangul_jaso_to_jamo (c : Nat) : Option Nat :=
  if c ≥ 0x1100 && c ≤ 0x1112 then jaso_to_jamo_choseong[sub32 c 0x1100]?
  else if c ≥ 0x1161 && c ≤ 0x1175 then jaso_to_jamo_jungseong[sub32 c 0x1161]?
  else if c ≥ 0x11a8 && c ≤ 0x11c2 then jaso_to_jamo_jongseong[sub32 c 0x11a8]?
  else some c

/-- Table of `hangul_choseong_to_jongseong`, for `0x1100 .. 0x1112`. -/
def choseong_to_jongseong_table : List Nat :=
  [0x11a8, 0x11a9, 0x11ab, 0x11ae, 0x0, 0x11af, 0x11b7, 0x11b8, 0x0, 0x11ba,
   0x11bb, 0x11bc, 0x11bd, 0x0, 0x11be, 0x11bf, 0x11c0, 0x11c1, 0x11c2]

/-- Function `hangul_choseong_to_jongseong`. -/
def hangul_choseong_to_jongseong (c : Nat) : Option Nat :=
  if c < 0x1100 || c > 0x1112 then some 0
  else choseong_to_jongseong_table[sub32 c 0x1100]?

/-- Table of `hangul_jongseong_to_choseong`, for `0x11a8 .. 0x11c2`. -/
def jongseong_to_choseong_table : List Nat :=
  [0x1100, 0x1101, 0x1109, 0x1102, 0x110c, 0x1112, 0x1103, 0x1105, 0x1100, 0x1106,
   0x1107, 0x1109, 0x1110, 0x1111, 0x1112, 0x1106, 0x1107, 0x1109, 0x1109, 0x110a,
   0x110b, 0x110c, 0x110e, 0x110f, 0x1110, 0x1111, 0x1112]

/-- Function `hangul_jongseong_to_choseong`. -/
def hangul_jongseong_to_choseong (c : Nat) : Option Nat :=
  if c < 0x11a8 || c > 0x11c2 then some 0
  else jongseong_to_choseong_table[sub32 c 0x11a8]?

/-- Table of `hangul_jongseong_dicompose`, for `0x11a8 .. 0x11c2`: the pairs
`{jong, cho}`. -/
def jongseong_dicompose_table : List (Nat × Nat) :=
  [(0, 0x1100), (0x11a8, 0x1100), (0x11a8, 0x1109), (0, 0x1102), (0x11ab, 0x110c),
   (0x11ab, 0x1112), (0, 0x1103), (0, 0x1105), (0x11af, 0x1100), (0x11af, 0x1106),
   (0x11af, 0x1107), (0x11af, 0x1109), (0x11af, 0x1110), (0x11af, 0x1111),
   (0x11af, 0x1112), (0, 0x1106), (0, 0x1107), (0x11b8, 0x1109), (0, 0x1109),
   (0x11ba, 0x1109), (0, 0x110b), (0, 0x110c), (0, 0x110e), (0, 0x110f), (0, 0x1110),
   (0, 0x1111), (0, 0x1112)]

/-- Function `hangul_jongseong_dicompose`: the values stored in `*jong` and
`*cho`.  The code reads the table with no test on `c`. -/
def hangul_jongseong_dicompose (c : Nat) : Option (Nat × Nat) :=
  match jongseong_dicompose_table[sub32 c 0x11a8]? with
  | some row => some (row.1, row.2)
  | none => none

/-! ## Syllable composer and decomposer (lines 354-410) -/

/-- Function `hangul_jaso_to_syllable`: a zero trailing is replaced by the filler
`0x11a7`, each argument is validated against its conjoinable range, and the
syllable is computed in unsigned 32-bit arithmetic. -/
def hangul_jaso_to_syllable (choseong jungseong jongseong : Nat) : Nat :=
  let jongseong := if jongseong = 0 then 0x11a7 else jongseong
  if !hangul_is_choseong_conjoinable choseong then 0
  else if !hangul_is_jungseong_conjoinable jungseong then 0
  else if !hangul_is_jongseong_conjoinable jongseong then 0
  else
    let choseong := sub32 choseong choseong_base
    let jungseong := sub32 jungseong jungseong_base
    let jongseong := sub32 jongseong jongseong_base
    add32 (add32 (mul32 (add32 (mul32 choseong njungseong) jungseong) njongseong) jongseong)
      hangul_base

/-- Function `hangul_syllable_to_jaso`.  Each output pointer is `none` when it is
`NULL` and `some v` when it points to a cell currently holding `v`; the
result gives the three cells after the call, in the order
(choseong, jungseong, jongseong). -/
def hangul_syllable_to_jaso (syllable : Nat) (choseong jungseong jongseong : Option Nat) :
    Option Nat × Option Nat × Option Nat :=
  let jongseong := jongseong.map (fun _ => 0)
  let jungseong := jungseong.map (fun _ => 0)
  let choseong := choseong.map (fun _ => 0)
  if !hangul_is_syllable syllable then (choseong, jungseong, jongseong)
  else
    let syllable := sub32 syllable hangul_base
    let jongseong :=
      if syllable % njongseong ≠ 0 then
        jongseong.map (fun _ => add32 jongseong_base (syllable % njongseong))
      else jongseong
    let syllable := syllable / njongseong
    let jungseong := jungseong.map (fun _ => add32 jungseong_base (syllable % njungseong))
    let syllable := syllable / njungseong
    let choseong := choseong.map (fun _ => add32 choseong_base syllable)
    (choseong, jungseong, jongseong)

/-! ## Boundary test between adjacent codepoints (lines 412-431) -/

def is_syllable_boundary (prev next : Nat) : Bool :=
  if hangul_is_choseong prev then
    if hangul_is_choseong next then false
    else if hangul_is_jungseong next then false
    else true
  else if hangul_is_jungseong prev then
    if hangul_is_jungseong next then false
    else if hangul_is_jongseong next then false
    else true
  else if hangul_is_jongseong prev then
    if hangul_is_jongseong next then false
    else true
  else true

/-! ## Cluster compressors (lines 433-530)

A test nested in the C code as `if (a == x) { if (b == y) return z; }` is
written as the conjunction `a = x ∧ b = y`; a failed inner test falls through
to the tests that follow, as in C. -/

def choseong_compress (a b : Nat) : Nat :=
  if a = 0 then b
  else if a = 0x1100 ∧ b = 0x1100 then 0x1101
  else if a = 0x1103 ∧ b = 0x1103 then 0x1104
  else if a = 0x1107 ∧ b = 0x1107 then 0x1108
  else if a = 0x1109 ∧ b = 0x1109 then 0x110a
  else if a = 0x110c ∧ b = 0x110c then 0x110d
  else 0

def jungseong_compress (a b : Nat) : Nat :=
  if a = 0 then b
  else if a = 0x1169 ∧ b = 0x1161 then 0x116a
  else if a = 0x1169 ∧ b = 0x1162 then 0x116b
  else if a = 0x1169 ∧ b = 0x1175 then 0x116c
  else if a = 0x116e ∧ b = 0x1165 then 0x116f
  else if a = 0x116e ∧ b = 0x1166 then 0x1170
  else if a = 0x116e ∧ b = 0x1175 then 0x1171
  else if b = 0x1175 ∧ a = 0x1173 then 0x1174
  else if b = 0x1175 ∧ a = 0x1161 then 0x1162
  else if b = 0x1175 ∧ a = 0x1163 then 0x1164
  else if b = 0x1175 ∧ a = 0x1165 then 0x1166
  else if b = 0x1175 ∧ a = 0x1167 then 0x1168
  else 0

def jongseong_compress (a b : Nat) : Nat :=
  if a = 0 then b
  else if a = 0x11a8 ∧ b = 0x11a8 then 0x11a9
  else if a = 0x11a8 ∧ b = 0x11ba then 0x11aa
  else if a = 0x11ab ∧ b = 0x11b0 then 0x11ab
  else if a = 0x11ab ∧ b = 0x11c2 then 0x11ad
  else if a = 0x11af ∧ b = 0x11a8 then 0x11b0
  else if a = 0x11af ∧ b = 0x11b7 then 0x11b1
  else if a = 0x11af ∧ b = 0x11b8 then 0x11b2
  else if a = 0x11af ∧ b = 0x11ba then 0x11b3
  else if a = 0x11af ∧ b = 0x11c0 then 0x11b4
  else if a = 0x11af ∧ b = 0x11c1 then 0x11b5
  else if a = 0x11af ∧ b = 0x11c2 then 0x11b6
  else if a = 0x11b8 ∧ b = 0x11ba then 0x11b9
  else if a = 0x11ba ∧ b = 0x11ba then 0x11bb
  else 0

/-! ## `build_syllable` (lines 532-564) -/

/-- How a `while` loop of `build_syllable` ends: it falls out of the loop
with the index and the accumulator, or it executes `return v`. -/
inductive Flow where
  | next (i acc : Nat)
  | ret (v : Nat)
  deriving DecidableEq, Repr

/-- One `while (i < len && is_conjoinable(str[i]))` loop of `build_syllable`,
for a class test `conj` and its compressor `compress`.  The first argument
is `len - i`, so the loop condition `i < len` is the successor case. -/
def build_syllable_loop (conj : Nat → Bool) (compress : Nat → Nat → Nat) (str : List Nat) :
    Nat → Nat → Nat → Option Flow
  | 0, i, acc => some (Flow.next i acc)
  | k + 1, i, acc =>
    match str[i]? with
    | none => none
    | some c =>
      if conj c then
        if compress acc c = 0 then some (Flow.ret 0)
        else build_syllable_loop conj compress str k (i + 1) (compress acc c)
      else some (Flow.next i acc)

/-- Function `build_syllable(str, len)`: `none` when a read falls outside `str`. -/
def build_syllable (str : List Nat) (len : Nat) : Option Nat :=
  match build_syllable_loop hangul_is_choseong_conjoinable choseong_compress str len 0 0 with
  | none => none
  | some (Flow.ret v) => some v
  | some (Flow.next i cho) =>
    match build_syllable_loop hangul_is_jungseong_conjoinable jungseong_compress str
        (len - i) i 0 with
    | none => none
    | some (Flow.ret v) => some v
    | some (Flow.next i jung) =>
      match build_syllable_loop hangul_is_jongseong_conjoinable jongseong_compress str
          (len - i) i 0 with
      | none => none
      | some (Flow.ret v) => some v
      | some (Flow.next i jong) =>
        if i < len then some 0
        else some (hangul_jaso_to_syllable cho jung jong)

/-! ## Boundary segmenter `hangul_syllable_len` (lines 591-607) -/

/-- The loop `for (i = 1; i < max_len; i++)`.  The first argument is
`max_len - i`, so the loop condition is the successor case. -/
def hangul_syllable_len_loop (str : List Nat) : Nat → Nat → Option Nat
  | 0, i => some i
  | k + 1, i =>
    match str[i]? with
    | none => none
    | some c =>
      if c = 0 then some i
      else
        match str[i - 1]? with
        | none => none
        | some p =>
          if is_syllable_boundary p c then some i
          else hangul_syllable_len_loop str k (i + 1)

/-- Function `hangul_syllable_len(str, max_len)`: `none` when a read falls outside
`str`. -/
def hangul_syllable_len (str : List Nat) (max_len : Int) : Option Int :=
  match str[0]? with
  | none => none
  | some c =>
    if c ≠ 0 then (hangul_syllable_len_loop str (max_len - 1).toNat 1).map Int.ofNat
    else some 0

/-! ## Buffer converter `hangul_jamos_to_syllables` (lines 633-677)

The destination is the array `dest` points into, paired with the list of
the indices written so far, in order.  A write outside the array is
undefined in C and is `none` here. -/

/-- The assignment `dest[i] = v`. -/
def store (buf log : List Nat) (i v : Nat) : Option (List Nat × List Nat) :=
  if i < buf.length then some (buf.set i v, log ++ [i]) else none

/-- The loop `while (*s != 0) s++` followed by `s - src`. -/
def scan_terminator : List Nat → Option Nat
  | [] => none
  | c :: rest => if c ≠ 0 then (scan_terminator rest).map (· + 1) else some 0

/-- The loop `for (i = 0; i < n && i < outleft; i++) d[i] = s[i]`, where `d`
is `dest + d`.  The first argument is `min n outleft - i`; the final `i` is
returned with the destination. -/
def copy_loop (s : List Nat) (d : Nat) :
    Nat → Nat → List Nat → List Nat → Option (Nat × List Nat × List Nat)
  | 0, i, buf, log => some (i, buf, log)
  | k + 1, i, buf, log =>
    match s[i]? with
    | none => none
    | some c =>
      match store buf log (d + i) c with
      | none => none
      | some (buf, log) => copy_loop s d k (i + 1) buf log

/-- The body of the main loop up to `outleft -= i`: the new offset of `d`,
the new `outleft` and the destination. -/
def emit_syllable (s : List Nat) (n : Int) (d : Nat) (outleft : Int) (buf log : List Nat) :
    Option (Nat × Int × List Nat × List Nat) :=
  match build_syllable s n.toNat with
  | none => none
  | some c =>
    if c ≠ 0 then
      match store buf log d c with
      | none => none
      | some (buf, log) => some (d + 1, outleft - 1, buf, log)
    else
      match copy_loop s d (min n outleft).toNat 0 buf log with
      | none => none
      | some (i, buf, log) => some (d + i, outleft - i, buf, log)

/-- The loop `while (n > 0 && outleft > 0)` and the final `return`.  The
first argument bounds the number of iterations; `none` is also the result
when it is exhausted. -/
def jamos_to_syllables_loop (destlen : Int) :
    Nat → List Nat → Nat → Int → Int → Int → List Nat → List Nat →
      Option (Int × List Nat × List Nat)
  | 0, _, _, _, outleft, n, buf, log =>
    if n > 0 ∧ outleft > 0 then none else some (destlen - outleft, buf, log)
  | fuel + 1, s, d, inleft, outleft, n, buf, log =>
    if n > 0 ∧ outleft > 0 then
      match emit_syllable s n d outleft buf log with
      | none => none
      | some (d, outleft, buf, log) =>
        match hangul_syllable_len (s.drop n.toNat) (inleft - n) with
        | none => none
        | some n1 =>
          jamos_to_syllables_loop destlen fuel (s.drop n.toNat) d (inleft - n) outleft n1 buf log
    else some (destlen - outleft, buf, log)

/-- Function `hangul_jamos_to_syllables(dest, destlen, src, srclen)`: the returned
count, the destination array after the call and the indices written, in
order.  Every iteration of the main loop lowers `outleft` by at least one,
so `destlen` iterations suffice. -/
def hangul_jamos_to_syllables (dest : List Nat) (destlen : Int) (src : List Nat)
    (srclen : Int) : Option (Int × List Nat × List Nat) :=
  match (if srclen < 0 then (scan_terminator src).map Int.ofNat else some srclen) with
  | none => none
  | some srclen =>
    match hangul_syllable_len src srclen with
    | none => none
    | some n => jamos_to_syllables_loop destlen destlen.toNat src 0 srclen destlen n dest []

/-! ## Specification of the conversion

The definitions below do not come from the C code: they state, over plain
lists, what the buffer converter is expected to write, and are compared with
the code in the theorems. -/

/-- Fold of a run of letters of one class through its compressor, starting
from the accumulator `acc`: `none` as soon as one merge fails. -/
def compress_run (compress : Nat → Nat → Nat) : Nat → List Nat → Option Nat
  | acc, [] => some acc
  | acc, c :: cs =>
    if compress acc c = 0 then none else compress_run compress (compress acc c) cs

/-- The syllable a span folds to: its conjoinable leading consonants, then
its conjoinable vowels, then its conjoinable trailing consonants are each
folded through the compressor of their class, and the three results are
composed.  The value is `0` when a merge fails, when codepoints are left
over, or when the composer rejects the triple. -/
def span_syllable (span : List Nat) : Nat :=
  let cho := span.takeWhile hangul_is_choseong_conjoinable
  let r1 := span.dropWhile hangul_is_choseong_conjoinable
  let jung := r1.takeWhile hangul_is_jungseong_conjoinable
  let r2 := r1.dropWhile hangul_is_jungseong_conjoinable
  let jong := r2.takeWhile hangul_is_jongseong_conjoinable
  let r3 := r2.dropWhile hangul_is_jongseong_conjoinable
  match compress_run choseong_compress 0 cho, compress_run jungseong_compress 0 jung,
      compress_run jongseong_compress 0 jong with
  | some l, some v, some t => if r3 = [] then hangul_jaso_to_syllable l v t else 0
  | _, _, _ => 0

/-- What the converter is expected to write for one span: the single
syllable codepoint when the span composes, the span unchanged otherwise. -/
def span_output (span : List Nat) : List Nat :=
  if span_syllable span ≠ 0 then [span_syllable span] else span

/-- The successive spans cut from the zero-terminated string `w` by
`hangul_syllable_len`; the first argument bounds the number of spans. -/
def syllable_spans : Nat → List Nat → List (List Nat)
  | 0, _ => []
  | fuel + 1, w =>
    match hangul_syllable_len (w ++ [0]) w.length with
    | some n => if 0 < n then w.take n.toNat :: syllable_spans fuel (w.drop n.toNat) else []
    | none => []

/-- The expected output of the converter on the zero-terminated string `w`:
the concatenation of the outputs of its spans. -/
def expected_output (w : List Nat) : List Nat :=
  ((syllable_spans w.length w).map span_output).flatten

/-- The number of codepoints after `p` that continue the syllable of `p`:
the scan stops at the end of the list, at a zero and at a boundary.  It is
the closed form of the loop of `hangul_syllable_len` used in the proofs. -/
def continue_len : Nat → List Nat → Nat
  | _, [] => 0
  | p, c :: cs => if c = 0 ∨ is_syllable_boundary p c = true then 0 else continue_len c cs + 1

/-- The jaso string of a syllable: the leading, the vowel, and the trailing
when it is present, as `hangul_syllable_to_jaso` reports them. -/
def syllable_jaso_string (s : Nat) : List Nat :=
  match hangul_syllable_to_jaso s (some 0) (some 0) (some 0) with
  | (some l, some v, some t) => if t ≠ 0 then [l, v, t] else [l, v]
  | _ => []

/-- A jaso inside the conjoinable range of its class. -/
def is_conjoinable_jaso (c : Nat) : Bool :=
  (hangul_is_choseong c && hangul_is_choseong_conjoinable c)
    || (hangul_is_jungseong c && hangul_is_jungseong_conjoinable c)
    || (hangul_is_jongseong c && hangul_is_jongseong_conjoinable c)

/-- The continuing pairs of the segmenter, over the raw classes: (leading,
leading), (leading, vowel), (vowel, vowel), (vowel, trailing) and (trailing,
trailing). -/
def continuing_pair (a b : Nat) : Bool :=
  (hangul_is_choseong a && hangul_is_choseong b)
    || (hangul_is_choseong a && hangul_is_jungseong b)
    || (hangul_is_jungseong a && hangul_is_jungseong b)
    || (hangul_is_jungseong a && hangul_is_jongseong b)
    || (hangul_is_jongseong a && hangul_is_jongseong b)

/-- The codepoint at index `i` is there, is not the terminator, and makes a
continuing pair with the codepoint before it. -/
def continues_at (str : List Nat) (i : Nat) : Bool :=
  match str[i - 1]?, str[i]? with
  | some a, some b => b ≠ 0 && continuing_pair a b
  | _, _ => false

/-- The first `n` codepoints of `str` continue one another: no codepoint at
index `1 .. n - 1` is the terminator and every adjacent pair up to there is
a continuing pair. -/
def continues_to (str : List Nat) (n : Nat) : Bool :=
  (List.range n).all (fun i => i == 0 || continues_at str i)

/-- The last codepoint of the non-empty list `p :: xs`. -/
def last_of : Nat → List Nat → Nat
  | p, [] => p
  | _, x :: xs => last_of x xs

/-- The scan of the segmenter stops after the codepoint `p` when `ys` follows
it: `ys` is empty, or starts with the terminator, or starts with a codepoint
that makes a boundary with `p`. -/
def stops_before (p : Nat) : List Nat → Bool
  | [] => true
  | y :: _ => y = 0 || is_syllable_boundary p y

/-- The trailing value the decomposer reports for a trailing argument of the
composer: an absent trailing (`0` or the filler `0x11a7`) is reported as `0`. -/
def reported_trailing (t : Nat) : Nat := if t = 0 ∨ t = 0x11a7 then 0 else t

/-- The trailing argument after the composer's filler substitution. -/
def filler_or (t : Nat) : Nat := if t = 0 then 0x11a7 else t

/-! ## Composer and decomposer: theorems -/

/-- On validated arguments the composer is the composition formula, with no
wrap-around. -/
theorem compose_formula (L V T : Nat)
    (hL : 0x1100 ≤ L ∧ L ≤ 0x1112) (hV : 0x1161 ≤ V ∧ V ≤ 0x1175)
    (hT : T = 0 ∨ (0x11a7 ≤ T ∧ T ≤ 0x11c2)) :
    hangul_jaso_to_syllable L V T
      = 0xac00 + ((L - 0x1100) * 21 + (V - 0x1161)) * 28 + (filler_or T - 0x11a7) := by
  have hT2 : 0x11a7 ≤ filler_or T ∧ filler_or T ≤ 0x11c2 := by
    unfold filler_or; split_ifs <;> omega
  have hcj : hangul_is_choseong_conjoinable L = true := by
    simp [hangul_is_choseong_conjoinable]; omega
  have hvj : hangul_is_jungseong_conjoinable V = true := by
    simp [hangul_is_jungseong_conjoinable]; omega
  have htj : hangul_is_jongseong_conjoinable (filler_or T) = true := by
    simp [hangul_is_jongseong_conjoinable]; omega
  have : hangul_jaso_to_syllable L V T
      = add32 (add32 (mul32 (add32 (mul32 (sub32 L choseong_base) njungseong)
          (sub32 V jungseong_base)) njongseong) (sub32 (filler_or T) jongseong_base))
          hangul_base := by
    simp only [hangul_jaso_to_syllable]
    rw [show (if T = 0 then 0x11a7 else T) = filler_or T from rfl]
    simp [hcj, hvj, htj]
  rw [this]
  simp only [add32, mul32, sub32, wrap32, choseong_base, jungseong_base, jongseong_base,
    njungseong, njongseong, hangul_base]
  omega

/-- The decomposer on a syllable codepoint, with the 32-bit arithmetic
resolved. -/
theorem hangul_syllable_to_jaso_eq (s : Nat) (pc pv pt : Option Nat)
    (h1 : 0xac00 ≤ s) (h2 : s ≤ 0xd7a3) :
    hangul_syllable_to_jaso s pc pv pt
      = (pc.map (fun _ => 0x1100 + (s - 0xac00) / 28 / 21),
         pv.map (fun _ => 0x1161 + (s - 0xac00) / 28 % 21),
         pt.map (fun _ => if (s - 0xac00) % 28 = 0 then 0 else 0x11a7 + (s - 0xac00) % 28)) := by
  have hs : hangul_is_syllable s = true := by
    simp [hangul_is_syllable]; omega
  have e0 : sub32 s hangul_base = s - 0xac00 := by
    simp only [sub32, hangul_base]; omega
  simp only [hangul_syllable_to_jaso, hs, e0, add32, wrap32, choseong_base, jungseong_base,
    jongseong_base, njungseong, njongseong]
  have b1 : (0x1100 + (s - 0xac00) / 28 / 21) % 2 ^ 32 = 0x1100 + (s - 0xac00) / 28 / 21 := by
    omega
  have b2 : (0x1161 + (s - 0xac00) / 28 % 21) % 2 ^ 32 = 0x1161 + (s - 0xac00) / 28 % 21 := by
    omega
  have b3 : (0x11a7 + (s - 0xac00) % 28) % 2 ^ 32 = 0x11a7 + (s - 0xac00) % 28 := by
    omega
  rw [b1, b2, b3]
  cases pc <;> cases pv <;> cases pt <;> simp <;> split_ifs <;> simp_all

/-- Bounds on the three offsets recovered from a syllable codepoint. -/
theorem decompose_fields (s : Nat) (h1 : 0xac00 ≤ s) (h2 : s ≤ 0xd7a3) :
    (s - 0xac00) / 28 / 21 ≤ 18 ∧ (s - 0xac00) / 28 % 21 ≤ 20 ∧ (s - 0xac00) % 28 ≤ 27 := by
  omega

/-- C1: for every conjoinable leading `L`, conjoinable vowel `V` and trailing
`T` that is `0` or in `[0x11a7, 0x11c2]`, decomposing the composed syllable
stores exactly `L`, `V` and `T'` in the requested outputs, where `T'` is `0`
when `T` is `0` or the filler and `T` otherwise. -/
theorem C1_decompose_compose (L V T : Nat) (pc pv pt : Option Nat)
    (hL : 0x1100 ≤ L ∧ L ≤ 0x1112) (hV : 0x1161 ≤ V ∧ V ≤ 0x1175)
    (hT : T = 0 ∨ (0x11a7 ≤ T ∧ T ≤ 0x11c2)) :
    hangul_syllable_to_jaso (hangul_jaso_to_syllable L V T) pc pv pt
      = (pc.map (fun _ => L), pv.map (fun _ => V), pt.map (fun _ => reported_trailing T)) := by
  have hc := compose_formula L V T hL hV hT
  have hT2 : 0x11a7 ≤ filler_or T ∧ filler_or T ≤ 0x11c2 := by
    unfold filler_or; split_ifs <;> omega
  have hr : reported_trailing T = if filler_or T = 0x11a7 then 0 else filler_or T := by
    unfold reported_trailing filler_or; split_ifs <;> omega
  rw [hr]
  generalize filler_or T = F at hc hT2
  generalize hangul_jaso_to_syllable L V T = s at hc
  rw [hangul_syllable_to_jaso_eq s _ _ _ (by omega) (by omega)]
  have a1 : 0x1100 + (s - 0xac00) / 28 / 21 = L := by omega
  have a2 : 0x1161 + (s - 0xac00) / 28 % 21 = V := by omega
  have a3 : (if (s - 0xac00) % 28 = 0 then 0 else 0x11a7 + (s - 0xac00) % 28)
      = if F = 0x11a7 then 0 else F := by
    split_ifs <;> omega
  rw [a1, a2, a3]

/-- Witness of C1 at `L = 0x1100`, `V = 0x1161`, `T = 0x11a7`. -/
theorem C1_decompose_compose_witness :
    hangul_syllable_to_jaso (hangul_jaso_to_syllable 0x1100 0x1161 0x11a7)
        (some 7) (some 8) (some 9)
      = (some 0x1100, some 0x1161, some 0) :=
  C1_decompose_compose 0x1100 0x1161 0x11a7 (some 7) (some 8) (some 9)
    (by decide) (by decide) (by decide)

/-- C2: for every syllable codepoint `s` in `[0xac00, 0xd7a3]` the decomposer
yields a triple `(L, V, T)`, and every triple it yields has `L` a conjoinable
leading consonant, `V` a conjoinable vowel, `T` either `0` or in
`[0x11a8, 0x11c2]`, and composes back to `s`. -/
theorem C2_compose_decompose (s c0 v0 t0 : Nat) (hs : 0xac00 ≤ s ∧ s ≤ 0xd7a3) :
    (∃ L V T, hangul_syllable_to_jaso s (some c0) (some v0) (some t0)
        = (some L, some V, some T)) ∧
    ∀ L V T, hangul_syllable_to_jaso s (some c0) (some v0) (some t0)
        = (some L, some V, some T) →
      hangul_is_choseong_conjoinable L = true ∧
      hangul_is_jungseong_conjoinable V = true ∧
      (T = 0 ∨ (0x11a8 ≤ T ∧ T ≤ 0x11c2)) ∧
      hangul_jaso_to_syllable L V T = s := by
  rw [hangul_syllable_to_jaso_eq s _ _ _ hs.1 hs.2]
  refine ⟨⟨_, _, _, rfl⟩, ?_⟩
  intro L V T h
  simp only [Option.map_some', Prod.mk.injEq, Option.some.injEq] at h
  obtain ⟨hL, hV, hT⟩ := h
  obtain ⟨f1, f2, f3⟩ := decompose_fields s hs.1 hs.2
  have hT' : T = 0 ∨ (0x11a8 ≤ T ∧ T ≤ 0x11c2) := by
    split_ifs at hT <;> omega
  have hc := compose_formula L V T (by omega) (by omega) (by omega)
  have hF : filler_or T = 0x11a7 + (s - 0xac00) % 28 := by
    unfold filler_or; split_ifs at hT ⊢ <;> omega
  refine ⟨?_, ?_, hT', ?_⟩
  · simp [hangul_is_choseong_conjoinable]; omega
  · simp [hangul_is_jungseong_conjoinable]; omega
  · rw [hc, hF]; omega

/-- Witness of C2 at the syllable `0xc00d`. -/
theorem C2_compose_decompose_witness :
    (∃ L V T, hangul_syllable_to_jaso 0xc00d (some 0) (some 0) (some 0)
        = (some L, some V, some T)) ∧
    ∀ L V T, hangul_syllable_to_jaso 0xc00d (some 0) (some 0) (some 0)
        = (some L, some V, some T) →
      hangul_is_choseong_conjoinable L = true ∧
      hangul_is_jungseong_conjoinable V = true ∧
      (T = 0 ∨ (0x11a8 ≤ T ∧ T ≤ 0x11c2)) ∧
      hangul_jaso_to_syllable L V T = 0xc00d :=
  C2_compose_decompose 0xc00d 0 0 0 (by decide)

/-- C3: with `T' = 0x11a7` when `T = 0` and `T' = T` otherwise, the composer
returns `0` when `L`, `V` or `T'` is outside its conjoinable range, and
otherwise returns the composition formula evaluated without wrap-around, a
non-zero value inside `[0xac00, 0xd7a3]`; a trailing of `0` and a trailing
of `0x11a7` give the same result. -/
theorem C3_compose_formula (L V T : Nat) :
    ((L < 0x1100 ∨ 0x1112 < L ∨ V < 0x1161 ∨ 0x1175 < V ∨
        (if T = 0 then 0x11a7 else T) < 0x11a7 ∨ 0x11c2 < (if T = 0 then 0x11a7 else T)) →
      hangul_jaso_to_syllable L V T = 0) ∧
    (¬ (L < 0x1100 ∨ 0x1112 < L ∨ V < 0x1161 ∨ 0x1175 < V ∨
        (if T = 0 then 0x11a7 else T) < 0x11a7 ∨ 0x11c2 < (if T = 0 then 0x11a7 else T)) →
      hangul_jaso_to_syllable L V T
          = 0xac00 + ((L - 0x1100) * 21 + (V - 0x1161)) * 28
              + ((if T = 0 then 0x11a7 else T) - 0x11a7) ∧
        hangul_jaso_to_syllable L V T ≠ 0 ∧
        0xac00 ≤ hangul_jaso_to_syllable L V T ∧ hangul_jaso_to_syllable L V T ≤ 0xd7a3) ∧
    hangul_jaso_to_syllable L V 0 = hangul_jaso_to_syllable L V 0x11a7 := by
  refine ⟨?_, ?_, ?_⟩
  · intro h
    simp only [hangul_jaso_to_syllable, hangul_is_choseong_conjoinable,
      hangul_is_jungseong_conjoinable, hangul_is_jongseong_conjoinable]
    by_cases h1 : 0x1100 ≤ L ∧ L ≤ 0x1112
    · by_cases h2 : 0x1161 ≤ V ∧ V ≤ 0x1175
      · have h3 : ¬ (0x11a7 ≤ (if T = 0 then 0x11a7 else T) ∧
            (if T = 0 then 0x11a7 else T) ≤ 0x11c2) := by omega
        simp [h1, h2, h3]
      · simp [h1, h2]
    · simp [h1]
  · intro h
    have hT : T = 0 ∨ (0x11a7 ≤ T ∧ T ≤ 0x11c2) := by
      split_ifs at h <;> omega
    have hc := compose_formula L V T (by omega) (by omega) hT
    have hF : filler_or T = if T = 0 then 0x11a7 else T := rfl
    rw [hF] at hc
    rw [hc]
    split_ifs at h ⊢ <;> omega
  · rfl

/-- Witness of C3: the triple `(0x1107, 0x116e, 0x11af)` is accepted, the
triple `(0x1113, 0x1161, 0)` is rejected. -/
theorem C3_compose_formula_witness :
    hangul_jaso_to_syllable 0x1113 0x1161 0 = 0 ∧
    hangul_jaso_to_syllable 0x1107 0x116e 0x11af = 0xbd88 :=
  ⟨(C3_compose_formula 0x1113 0x1161 0).1 (by decide),
   by
    have h := ((C3_compose_formula 0x1107 0x116e 0x11af).2.1 (by decide)).1
    simpa using h⟩

/-- C4: outside `[0xac00, 0xd7a3]` the decomposer stores `0` in every
requested output; inside the range the leading and vowel outputs, when
requested, are non-zero; with all three outputs requested the result is
all-zero exactly for an input outside the range. -/
theorem C4_decompose_non_syllable (s : Nat) (pc pv pt : Option Nat) (c0 v0 t0 : Nat) :
    (¬ (0xac00 ≤ s ∧ s ≤ 0xd7a3) →
      hangul_syllable_to_jaso s pc pv pt
        = (pc.map (fun _ => 0), pv.map (fun _ => 0), pt.map (fun _ => 0))) ∧
    ((0xac00 ≤ s ∧ s ≤ 0xd7a3) →
      (∀ L, (hangul_syllable_to_jaso s pc pv pt).1 = some L → L ≠ 0) ∧
      (∀ V, (hangul_syllable_to_jaso s pc pv pt).2.1 = some V → V ≠ 0)) ∧
    (hangul_syllable_to_jaso s (some c0) (some v0) (some t0) = (some 0, some 0, some 0)
      ↔ ¬ (0xac00 ≤ s ∧ s ≤ 0xd7a3)) := by
  have hout : ∀ qc qv qt : Option Nat, ¬ (0xac00 ≤ s ∧ s ≤ 0xd7a3) →
      hangul_syllable_to_jaso s qc qv qt
        = (qc.map (fun _ => 0), qv.map (fun _ => 0), qt.map (fun _ => 0)) := by
    intro qc qv qt h
    have hs : hangul_is_syllable s = false := by
      simp [hangul_is_syllable]; omega
    simp [hangul_syllable_to_jaso, hs]
  refine ⟨hout pc pv pt, ?_, ?_⟩
  · intro h
    rw [hangul_syllable_to_jaso_eq s _ _ _ h.1 h.2]
    constructor
    · intro L hL
      cases pc with
      | none => simp at hL
      | some c => simp at hL; omega
    · intro V hV
      cases pv with
      | none => simp at hV
      | some c => simp at hV; omega
  · constructor
    · intro h hs
      rw [hangul_syllable_to_jaso_eq s _ _ _ hs.1 hs.2] at h
      simp at h
    · intro h
      rw [hout _ _ _ h]
      rfl

/-- Witness of C4: the compatibility letter `0x3131` decomposes to all-zero,
the syllable `0xac00` to a non-zero leading and vowel. -/
theorem C4_decompose_non_syllable_witness :
    hangul_syllable_to_jaso 0x3131 (some 1) (some 2) (some 3) = (some 0, some 0, some 0) ∧
    ((∀ L, (hangul_syllable_to_jaso 0xac00 (some 1) (some 2) (some 3)).1 = some L →
        L ≠ 0) ∧
      (∀ V, (hangul_syllable_to_jaso 0xac00 (some 1) (some 2) (some 3)).2.1 = some V →
        V ≠ 0)) :=
  ⟨(C4_decompose_non_syllable 0x3131 (some 1) (some 2) (some 3) 0 0 0).1 (by decide),
   (C4_decompose_non_syllable 0xac00 (some 1) (some 2) (some 3) 0 0 0).2.1 (by decide)⟩

/-! ## Buffer converter: the destination -/

/-- A store at the end of the written prefix `pre`. -/
theorem store_append (pre post log : List Nat) (v : Nat) :
    store (pre ++ post) log pre.length v =
      if post = [] then none else some (pre ++ [v] ++ post.drop 1, log ++ [pre.length]) := by
  cases post with
  | nil => simp [store]
  | cons x xs => simp [store]

/-- The copy loop appends `k` source codepoints to the written prefix `pre`, or
fails when the source or the destination is too short. -/
theorem copy_loop_append (s : List Nat) (d : Nat) : ∀ (k i : Nat) (pre post log : List Nat),
    pre.length = d + i →
    copy_loop s d k i (pre ++ post) log =
      if k = 0 ∨ (i + k ≤ s.length ∧ k ≤ post.length) then
        some (i + k, pre ++ (s.drop i).take k ++ post.drop k, log ++ List.range' (d + i) k)
      else none := by
  intro k
  induction k with
  | zero => intro i pre post log _; simp [copy_loop]
  | succ k ih =>
    intro i pre post log hpre
    rw [copy_loop]
    by_cases hi : i < s.length
    · rw [List.getElem?_eq_getElem hi]
      simp only []
      rw [← hpre, store_append]
      cases post with
      | nil => simp
      | cons x xs =>
        simp only [reduceCtorEq, if_false, List.drop_succ_cons, List.drop_zero]
        rw [ih (i + 1) (pre ++ [s[i]]) xs _ (by simp [hpre]; omega)]
        have e1 : List.take (k + 1) (List.drop i s) = s[i] :: List.take k (List.drop (i + 1) s) := by
          rw [List.drop_eq_getElem_cons hi, List.take_succ_cons]
        have e2 : i + 1 + k = i + (k + 1) := by omega
        have e3 : d + (i + 1) = d + i + 1 := by omega
        by_cases hC : i + (k + 1) ≤ s.length ∧ k ≤ xs.length
        · have h1 : k = 0 ∨ (i + 1 + k ≤ s.length ∧ k ≤ xs.length) := Or.inr (by omega)
          have h2 : False ∨ (i + (k + 1) ≤ s.length ∧ k + 1 ≤ (x :: xs).length) :=
            Or.inr (by simp only [List.length_cons]; omega)
          rw [if_pos h1, if_pos h2]
          simp [e1, e2, hpre, List.range'_succ, e3]
        · have h1 : ¬ (k = 0 ∨ (i + 1 + k ≤ s.length ∧ k ≤ xs.length)) := by omega
          have h2 : ¬ (False ∨ (i + (k + 1) ≤ s.length ∧ k + 1 ≤ (x :: xs).length)) := by
            simp only [List.length_cons, false_or]; omega
          rw [if_neg h1, if_neg h2]
    · rw [List.getElem?_eq_none (by omega)]
      simp only []
      rw [if_neg (by omega)]

/-- Shape of one emission, whenever it is defined: a non-empty block `o` of
at most `outleft` codepoints is appended to the written prefix `pre`. -/
theorem emit_syllable_shape (s : List Nat) (n outleft : Int) (pre post log : List Nat)
    (res : Nat × Int × List Nat × List Nat) (hn : 0 < n) (ho : 0 < outleft)
    (h : emit_syllable s n pre.length outleft (pre ++ post) log = some res) :
    ∃ o : List Nat, 1 ≤ o.length ∧ (o.length : Int) ≤ outleft ∧ o.length ≤ post.length ∧
      res = (pre.length + o.length, outleft - (o.length : Int),
        pre ++ o ++ post.drop o.length, log ++ List.range' pre.length o.length) := by
  unfold emit_syllable at h
  cases hb : build_syllable s n.toNat with
  | none => rw [hb] at h; simp at h
  | some c =>
    rw [hb] at h
    simp only [] at h
    by_cases hc : c = 0
    · rw [if_neg (by simpa using hc)] at h
      have hk := copy_loop_append s pre.length (min n outleft).toNat 0 pre post log (by simp)
      rw [hk] at h
      have hkpos : 1 ≤ (min n outleft).toNat := by omega
      by_cases hC : (min n outleft).toNat = 0 ∨
          (0 + (min n outleft).toNat ≤ s.length ∧ (min n outleft).toNat ≤ post.length)
      · rw [if_pos hC] at h
        simp only [Option.some.injEq] at h
        have hlen : (List.take (min n outleft).toNat (List.drop 0 s)).length
            = (min n outleft).toNat := by
          simp only [List.drop_zero, List.length_take]; omega
        refine ⟨List.take (min n outleft).toNat (List.drop 0 s), ?_, ?_, ?_, ?_⟩
        · omega
        · rw [hlen]; omega
        · omega
        · rw [hlen, ← h]
          simp
      · rw [if_neg hC] at h
        simp at h
    · rw [if_pos (by simpa using hc)] at h
      rw [store_append] at h
      by_cases hp : post = []
      · rw [if_pos hp] at h; simp at h
      · rw [if_neg hp] at h
        simp only [Option.some.injEq] at h
        refine ⟨[c], by simp, by simp; omega, ?_, ?_⟩
        · cases post with
          | nil => exact absurd rfl hp
          | cons x xs => simp
        · rw [← h]; simp

/-- What one iteration writes for a span whose `build_syllable` value is `c`:
the syllable `c` when it is non-zero, the span itself otherwise. -/
theorem emit_syllable_eq (s : List Nat) (n outleft : Int) (pre post log : List Nat) (c : Nat)
    (hn : 0 < n) (ho : 0 < outleft) (hs : n.toNat ≤ s.length)
    (hp : outleft.toNat ≤ post.length) (hb : build_syllable s n.toNat = some c) :
    ∃ o : List Nat, o = ((if c ≠ 0 then [c] else s.take n.toNat).take outleft.toNat) ∧
      1 ≤ o.length ∧
      emit_syllable s n pre.length outleft (pre ++ post) log
        = some (pre.length + o.length, outleft - (o.length : Int),
            pre ++ o ++ post.drop o.length, log ++ List.range' pre.length o.length) := by
  refine ⟨_, rfl, ?_, ?_⟩
  · by_cases hc : c = 0
    · simp only [hc, ne_eq, not_true_eq_false, if_false, List.length_take]; omega
    · simp only [hc, ne_eq, not_false_eq_true, if_true, List.length_take, List.length_singleton]
      omega
  · unfold emit_syllable
    rw [hb]
    simp only []
    by_cases hc : c = 0
    · rw [if_neg (by simpa using hc)]
      rw [copy_loop_append s pre.length (min n outleft).toNat 0 pre post log (by simp)]
      rw [if_pos (Or.inr (by omega))]
      have e : (min n outleft).toNat = min outleft.toNat n.toNat := by omega
      simp only [hc, ne_eq, not_true_eq_false, if_false, List.take_take, List.drop_zero,
        List.length_take, e]
      have e2 : min (min outleft.toNat n.toNat) s.length = min outleft.toNat n.toNat := by omega
      have e3 : min outleft.toNat (min n.toNat s.length) = min outleft.toNat n.toNat := by omega
      simp [e2, e3]
    · rw [if_pos (by simpa using hc)]
      rw [store_append]
      have hp2 : post ≠ [] := by
        intro h0; rw [h0] at hp; simp at hp; omega
      rw [if_neg hp2]
      have e : List.take outleft.toNat [c] = [c] := by
        apply List.take_of_length_le; simp; omega
      simp [hc, e]

/-- Shape of the result of the main loop, whenever it is defined, for any
source: a block `out` of at most `outleft` codepoints is appended to the
written prefix `pre`, at consecutive indices, and nothing else is written. -/
theorem jamos_to_syllables_loop_shape (destlen : Int) :
    ∀ (fuel : Nat) (s : List Nat) (inleft outleft n : Int) (pre post log : List Nat)
      (res : Int × List Nat × List Nat),
      0 ≤ outleft →
      jamos_to_syllables_loop destlen fuel s pre.length inleft outleft n (pre ++ post) log
        = some res →
      ∃ out : List Nat, (out.length : Int) ≤ outleft ∧ out.length ≤ post.length ∧
        res = (destlen - outleft + (out.length : Int), pre ++ out ++ post.drop out.length,
          log ++ List.range' pre.length out.length) := by
  intro fuel
  induction fuel with
  | zero =>
    intro s inleft outleft n pre post log res ho h
    rw [jamos_to_syllables_loop] at h
    split_ifs at h
    simp only [Option.some.injEq] at h
    exact ⟨[], by simpa using ho, by simp, by rw [← h]; simp⟩
  | succ fuel ih =>
    intro s inleft outleft n pre post log res ho h
    rw [jamos_to_syllables_loop] at h
    by_cases hc : n > 0 ∧ outleft > 0
    · rw [if_pos hc] at h
      cases he : emit_syllable s n pre.length outleft (pre ++ post) log with
      | none => rw [he] at h; simp at h
      | some r1 =>
        obtain ⟨o, ho1, ho2, ho3, hr1⟩ :=
          emit_syllable_shape s n outleft pre post log r1 hc.1 hc.2 he
        rw [he, hr1] at h
        simp only [] at h
        cases hl : hangul_syllable_len (List.drop n.toNat s) (inleft - n) with
        | none => rw [hl] at h; simp at h
        | some n1 =>
          rw [hl] at h
          simp only [] at h
          rw [← List.length_append] at h
          obtain ⟨out, h1, h2, h3⟩ := ih _ _ _ _ (pre ++ o) (post.drop o.length) _ res
            (by omega) h
          refine ⟨o ++ out, ?_, ?_, ?_⟩
          · simp only [List.length_append, Nat.cast_add]; omega
          · simp only [List.length_append, List.length_drop] at h2 ⊢; omega
          · rw [h3]
            simp only [List.length_append, Nat.cast_add, List.append_assoc, List.drop_drop,
              Prod.mk.injEq]
            refine ⟨by omega, trivial, ?_⟩
            rw [Nat.add_comm o.length out.length,
              List.range'_append_1 pre.length o.length out.length]
    · rw [if_neg hc] at h
      simp only [Option.some.injEq] at h
      exact ⟨[], by simpa using ho, by simp, by rw [← h]; simp⟩

/-! ## `build_syllable` against the specification -/

/-- One loop of `build_syllable` over the span `xs` stored after `pre`: it
folds the longest prefix of `xs` in the class. -/
theorem build_syllable_loop_eq (conj : Nat → Bool) (compress : Nat → Nat → Nat)
    (rest : List Nat) : ∀ (xs pre : List Nat) (acc : Nat),
    build_syllable_loop conj compress (pre ++ xs ++ rest) xs.length pre.length acc
      = some (match compress_run compress acc (xs.takeWhile conj) with
          | none => Flow.ret 0
          | some a => Flow.next (pre.length + (xs.takeWhile conj).length) a) := by
  intro xs
  induction xs with
  | nil => intro pre acc; simp [build_syllable_loop, compress_run]
  | cons x xs ih =>
    intro pre acc
    simp only [List.length_cons]
    rw [build_syllable_loop]
    have hx : (pre ++ x :: xs ++ rest)[pre.length]? = some x := by
      rw [List.append_assoc, List.getElem?_append_right (le_refl _)]
      simp
    rw [hx]
    simp only []
    by_cases hc : conj x = true
    · rw [if_pos hc, List.takeWhile_cons_of_pos hc]
      by_cases h0 : compress acc x = 0
      · rw [if_pos h0]; simp [compress_run, h0]
      · rw [if_neg h0]
        have e : pre ++ x :: xs ++ rest = (pre ++ [x]) ++ xs ++ rest := by simp
        have e2 : pre.length + 1 = (pre ++ [x]).length := by simp
        rw [e, e2, ih (pre ++ [x]) (compress acc x)]
        simp only [compress_run, h0, if_false, List.length_append, List.length_cons,
          List.length_nil, List.length_singleton]
        cases compress_run compress (compress acc x) (List.takeWhile conj xs) with
        | none => rfl
        | some a => simp only [Option.some.injEq, Flow.next.injEq, and_true]; omega
    · rw [if_neg hc, List.takeWhile_cons_of_neg hc]
      simp [compress_run]

/-- A loop of `build_syllable` started at the end of the prefix `pre` of the
span `pre ++ xs`. -/
theorem build_syllable_loop_span (conj : Nat → Bool) (compress : Nat → Nat → Nat)
    (span rest pre xs : List Nat) (acc : Nat) (h : pre ++ xs = span) :
    build_syllable_loop conj compress (span ++ rest) (span.length - pre.length) pre.length acc
      = some (match compress_run compress acc (xs.takeWhile conj) with
          | none => Flow.ret 0
          | some a => Flow.next (pre.length + (xs.takeWhile conj).length) a) := by
  have e := build_syllable_loop_eq conj compress rest xs pre acc
  rw [h] at e
  have hl : xs.length = span.length - pre.length := by
    rw [← h, List.length_append]; omega
  rw [hl] at e
  exact e

/-- On a span followed by anything, `build_syllable` is defined and equals
the fold of the specification. -/
theorem build_syllable_eq (span rest : List Nat) :
    build_syllable (span ++ rest) span.length = some (span_syllable span) := by
  have hs1 : span.takeWhile hangul_is_choseong_conjoinable
      ++ span.dropWhile hangul_is_choseong_conjoinable = span :=
    List.takeWhile_append_dropWhile _ _
  have hs2 : (span.dropWhile hangul_is_choseong_conjoinable).takeWhile
        hangul_is_jungseong_conjoinable
      ++ (span.dropWhile hangul_is_choseong_conjoinable).dropWhile
        hangul_is_jungseong_conjoinable
      = span.dropWhile hangul_is_choseong_conjoinable :=
    List.takeWhile_append_dropWhile _ _
  have hs3 : ((span.dropWhile hangul_is_choseong_conjoinable).dropWhile
        hangul_is_jungseong_conjoinable).takeWhile hangul_is_jongseong_conjoinable
      ++ ((span.dropWhile hangul_is_choseong_conjoinable).dropWhile
        hangul_is_jungseong_conjoinable).dropWhile hangul_is_jongseong_conjoinable
      = (span.dropWhile hangul_is_choseong_conjoinable).dropWhile
        hangul_is_jungseong_conjoinable :=
    List.takeWhile_append_dropWhile _ _
  have l1 := build_syllable_loop_span hangul_is_choseong_conjoinable choseong_compress
    span rest [] span 0 rfl
  have l2 := build_syllable_loop_span hangul_is_jungseong_conjoinable jungseong_compress
    span rest _ _ 0 hs1
  have l3 := build_syllable_loop_span hangul_is_jongseong_conjoinable jongseong_compress
    span rest
    (span.takeWhile hangul_is_choseong_conjoinable
      ++ (span.dropWhile hangul_is_choseong_conjoinable).takeWhile
        hangul_is_jungseong_conjoinable)
    ((span.dropWhile hangul_is_choseong_conjoinable).dropWhile
        hangul_is_jungseong_conjoinable) 0
    (by rw [List.append_assoc, hs2, hs1])
  simp only [List.length_nil, Nat.sub_zero, Nat.zero_add] at l1
  simp only [List.length_append] at l3
  have hlen : span.length
      = (span.takeWhile hangul_is_choseong_conjoinable).length
        + (((span.dropWhile hangul_is_choseong_conjoinable).takeWhile
            hangul_is_jungseong_conjoinable).length
          + ((((span.dropWhile hangul_is_choseong_conjoinable).dropWhile
              hangul_is_jungseong_conjoinable).takeWhile
                hangul_is_jongseong_conjoinable).length
            + (((span.dropWhile hangul_is_choseong_conjoinable).dropWhile
              hangul_is_jungseong_conjoinable).dropWhile
                hangul_is_jongseong_conjoinable).length)) := by
    conv_lhs => rw [← hs1, ← hs2, ← hs3]
    simp only [List.length_append]
  unfold build_syllable span_syllable
  rw [l1]
  simp only []
  cases h1 : compress_run choseong_compress 0
      (span.takeWhile hangul_is_choseong_conjoinable) with
  | none => simp
  | some l =>
    simp only []
    rw [l2]
    cases h2 : compress_run jungseong_compress 0
        ((span.dropWhile hangul_is_choseong_conjoinable).takeWhile
          hangul_is_jungseong_conjoinable) with
    | none => simp
    | some v =>
      simp only []
      rw [l3]
      cases h3 : compress_run jongseong_compress 0
          (((span.dropWhile hangul_is_choseong_conjoinable).dropWhile
            hangul_is_jungseong_conjoinable).takeWhile hangul_is_jongseong_conjoinable) with
      | none => simp
      | some t =>
        simp only []
        by_cases hr : ((span.dropWhile hangul_is_choseong_conjoinable).dropWhile
            hangul_is_jungseong_conjoinable).dropWhile hangul_is_jongseong_conjoinable = []
        · rw [hr] at hlen
          simp only [List.length_nil, Nat.add_zero] at hlen
          rw [if_pos hr, if_neg (by omega)]
        · have hpos := List.length_pos.mpr hr
          rw [if_neg hr, if_pos (by omega)]

/-! ## The segmenter on a source that holds a terminator -/

/-- The loop of `hangul_syllable_len` from the codepoint `p` stored after
`pre`, when a terminator follows: it never reads outside the array. -/
theorem hangul_syllable_len_loop_eq : ∀ (k : Nat) (pre : List Nat) (p : Nat) (tl : List Nat),
    0 ∈ tl →
    hangul_syllable_len_loop (pre ++ p :: tl) k (pre.length + 1)
      = some (pre.length + 1 + min k (continue_len p tl)) := by
  intro k
  induction k with
  | zero => intro pre p tl _; simp [hangul_syllable_len_loop]
  | succ k ih =>
    intro pre p tl h0
    cases tl with
    | nil => simp at h0
    | cons c cs =>
      rw [hangul_syllable_len_loop]
      have hc : (pre ++ p :: c :: cs)[pre.length + 1]? = some c := by
        rw [List.getElem?_append_right (by omega)]
        simp
      have hp : (pre ++ p :: c :: cs)[pre.length + 1 - 1]? = some p := by
        rw [List.getElem?_append_right (by omega)]
        simp
      rw [hc]
      simp only []
      by_cases hz : c = 0
      · rw [if_pos hz]
        simp [continue_len, hz]
      · rw [if_neg hz, hp]
        simp only []
        have h0' : 0 ∈ cs := by
          rcases List.mem_cons.mp h0 with h | h
          · exact absurd h.symm hz
          · exact h
        by_cases hb : is_syllable_boundary p c = true
        · rw [if_pos hb]
          simp [continue_len, hb]
        · rw [if_neg hb]
          have e : pre ++ p :: c :: cs = (pre ++ [p]) ++ c :: cs := by simp
          have e2 : pre.length + 1 = (pre ++ [p]).length := by simp
          rw [e, e2, ih (pre ++ [p]) c cs h0']
          simp only [continue_len, hz, hb, false_or, if_false, List.length_append,
            List.length_singleton, Option.some.injEq, Bool.false_eq_true, List.length_cons,
            List.length_nil]
          omega

/-- The span length on a source that holds a terminator. -/
theorem hangul_syllable_len_eq (c : Nat) (tl : List Nat) (max_len : Int) (h0 : 0 ∈ c :: tl) :
    hangul_syllable_len (c :: tl) max_len
      = some (if c = 0 then 0
          else ((1 + min (max_len - 1).toNat (continue_len c tl) : Nat) : Int)) := by
  unfold hangul_syllable_len
  simp only [List.getElem?_cons_zero]
  by_cases hz : c = 0
  · simp [hz]
  · have h0' : 0 ∈ tl := by
      rcases List.mem_cons.mp h0 with h | h
      · exact absurd h.symm hz
      · exact h
    have e := hangul_syllable_len_loop_eq (max_len - 1).toNat [] c tl h0'
    simp only [List.nil_append, List.length_nil, Nat.zero_add] at e
    rw [if_pos hz, e, if_neg hz]
    rfl

/-- The codepoints counted by `continue_len` are non-zero: a terminator of
the list is still there after dropping them. -/
theorem mem_drop_continue_len : ∀ (tl : List Nat) (p m : Nat),
    0 ∈ tl → m ≤ continue_len p tl → 0 ∈ tl.drop m := by
  intro tl
  induction tl with
  | nil => intro p m h0 _; simp at h0
  | cons c cs ih =>
    intro p m h0 hm
    cases m with
    | zero => simpa using h0
    | succ m =>
      simp only [continue_len] at hm
      by_cases hc : c = 0 ∨ is_syllable_boundary p c = true
      · rw [if_pos hc] at hm; omega
      · rw [if_neg hc] at hm
        have hz : c ≠ 0 := fun h => hc (Or.inl h)
        have h0' : 0 ∈ cs := by
          rcases List.mem_cons.mp h0 with h | h
          · exact absurd h.symm hz
          · exact h
        simpa using ih c m h0' (by omega)

/-- On a source that holds a terminator the span length is defined,
non-negative, and the terminator lies beyond the span. -/
theorem hangul_syllable_len_total (s : List Nat) (max_len : Int) (h0 : 0 ∈ s) :
    ∃ n : Int, hangul_syllable_len s max_len = some n ∧ 0 ≤ n ∧ 0 ∈ s.drop n.toNat := by
  cases s with
  | nil => simp at h0
  | cons c tl =>
    rw [hangul_syllable_len_eq c tl max_len h0]
    refine ⟨_, rfl, ?_, ?_⟩
    · split_ifs <;> omega
    · by_cases hz : c = 0
      · simp [hz]
      · have h0' : 0 ∈ tl := by
          rcases List.mem_cons.mp h0 with h | h
          · exact absurd h.symm hz
          · exact h
        rw [if_neg hz]
        simp only [Int.toNat_ofNat]
        rw [Nat.add_comm 1, List.drop_succ_cons]
        exact mem_drop_continue_len tl c _ h0' (Nat.min_le_right _ _)

/-! ## The main loop on a source that holds a terminator -/

/-- Value of `build_syllable` on the first `n` codepoints of an array that has them. -/
theorem build_syllable_take (s : List Nat) (n : Nat) (h : n ≤ s.length) :
    build_syllable s n = some (span_syllable (s.take n)) := by
  have e := build_syllable_eq (s.take n) (s.drop n)
  rw [List.take_append_drop, List.length_take, Nat.min_eq_left h] at e
  exact e

/-- A list with a member beyond its first `n` elements has more than `n`
elements. -/
theorem lt_length_of_mem_drop (s : List Nat) (n x : Nat) (h : x ∈ s.drop n) :
    n < s.length := by
  by_contra hc
  rw [List.drop_of_length_le (by omega)] at h
  simp at h

/-- The main loop is defined on every source that holds a terminator, with
enough room in the destination. -/
theorem jamos_to_syllables_loop_total (destlen : Int) :
    ∀ (fuel : Nat) (s : List Nat) (inleft outleft n : Int) (pre post log : List Nat),
      0 ≤ n → 0 ∈ s.drop n.toNat → outleft.toNat ≤ fuel → outleft.toNat ≤ post.length →
      ∃ res, jamos_to_syllables_loop destlen fuel s pre.length inleft outleft n
        (pre ++ post) log = some res := by
  intro fuel
  induction fuel with
  | zero =>
    intro s inleft outleft n pre post log _ _ hf _
    rw [jamos_to_syllables_loop, if_neg (by omega)]
    exact ⟨_, rfl⟩
  | succ fuel ih =>
    intro s inleft outleft n pre post log hn h0 hf hp
    rw [jamos_to_syllables_loop]
    by_cases hc : n > 0 ∧ outleft > 0
    · rw [if_pos hc]
      have hlen := lt_length_of_mem_drop s n.toNat 0 h0
      obtain ⟨o, ho, ho1, he⟩ := emit_syllable_eq s n outleft pre post log _ hc.1 hc.2
        (by omega) hp (build_syllable_take s n.toNat (by omega))
      have ho2 : o.length ≤ outleft.toNat := by
        rw [ho]; exact List.length_take_le _ _
      obtain ⟨n1, hl, hn1, h01⟩ := hangul_syllable_len_total (s.drop n.toNat) (inleft - n) h0
      rw [he]
      simp only []
      rw [hl]
      simp only []
      rw [← List.length_append]
      exact ih _ _ _ _ (pre ++ o) (post.drop o.length) _ hn1 h01 (by omega)
        (by rw [List.length_drop]; omega)
    · rw [if_neg hc]
      exact ⟨_, rfl⟩

/-- The scan for the terminator is defined on a source that holds one. -/
theorem scan_terminator_total : ∀ (src : List Nat),
    0 ∈ src → ∃ z, scan_terminator src = some z := by
  intro src
  induction src with
  | nil => intro h; simp at h
  | cons c cs ih =>
    intro h
    by_cases hz : c = 0
    · exact ⟨0, by simp [scan_terminator, hz]⟩
    · have h0' : 0 ∈ cs := by
        rcases List.mem_cons.mp h with h | h
        · exact absurd h.symm hz
        · exact h
      obtain ⟨z, hz'⟩ := ih h0'
      exact ⟨z + 1, by simp [scan_terminator, hz, hz']⟩

/-- C8: for every source, `srclen` and `destlen ≥ 0`, whenever the call is
defined it returns a count `r` with `0 ≤ r ≤ destlen`, the indices written
are exactly `0, 1, ..., r - 1`, each once and in order, and every
destination position at index `≥ r` is unchanged; and the call is defined
for every source that holds a terminator and every destination of at least
`destlen` codepoints. -/
theorem C8_output_within_capacity (dest src : List Nat) (destlen srclen : Int)
    (hd : 0 ≤ destlen) :
    (∀ r buf log, hangul_jamos_to_syllables dest destlen src srclen = some (r, buf, log) →
      0 ≤ r ∧ r ≤ destlen ∧ log = List.range r.toNat ∧ buf.length = dest.length ∧
        ∀ i, r.toNat ≤ i → buf[i]? = dest[i]?) ∧
    (0 ∈ src → destlen ≤ dest.length →
      ∃ res, hangul_jamos_to_syllables dest destlen src srclen = some res) := by
  constructor
  · intro r buf log h
    unfold hangul_jamos_to_syllables at h
    cases h1 : (if srclen < 0 then (scan_terminator src).map Int.ofNat else some srclen) with
    | none => rw [h1] at h; simp at h
    | some sl =>
      rw [h1] at h
      simp only [] at h
      cases h2 : hangul_syllable_len src sl with
      | none => rw [h2] at h; simp at h
      | some n =>
        rw [h2] at h
        simp only [] at h
        obtain ⟨out, o1, o2, o3⟩ :=
          jamos_to_syllables_loop_shape destlen destlen.toNat src sl destlen n [] dest []
            (r, buf, log) hd h
        simp only [List.nil_append, List.length_nil, Prod.mk.injEq] at o3
        obtain ⟨e1, e2, e3⟩ := o3
        have er : r.toNat = out.length := by omega
        refine ⟨by omega, by omega, ?_, ?_, ?_⟩
        · rw [e3, er, List.range_eq_range']
        · rw [e2, List.length_append, List.length_drop]; omega
        · intro i hi
          rw [e2, List.getElem?_append_right (by omega), List.getElem?_drop]
          congr 1
          omega
  · intro h0 hlen
    unfold hangul_jamos_to_syllables
    have hsl : ∃ sl, (if srclen < 0 then (scan_terminator src).map Int.ofNat
        else some srclen) = some sl := by
      by_cases hs : srclen < 0
      · rw [if_pos hs]
        obtain ⟨z, hz⟩ := scan_terminator_total src h0
        exact ⟨_, by rw [hz]; rfl⟩
      · rw [if_neg hs]; exact ⟨_, rfl⟩
    obtain ⟨sl, hsl⟩ := hsl
    rw [hsl]
    simp only []
    obtain ⟨n, hl, hn, h0n⟩ := hangul_syllable_len_total src sl h0
    rw [hl]
    simp only []
    exact jamos_to_syllables_loop_total destlen destlen.toNat src sl destlen n [] dest []
      hn h0n (le_refl _) (by omega)

/-- Witness of C8: a source of two spans converted with capacity 2 into a
destination of three codepoints. -/
theorem C8_output_within_capacity_witness :
    (∃ res, hangul_jamos_to_syllables [7, 7, 7] 2 [0x1100, 0x1161, 0x11a8, 0x3131, 0] (-1)
      = some res) ∧
    (∀ r buf log,
      hangul_jamos_to_syllables [7, 7, 7] 2 [0x1100, 0x1161, 0x11a8, 0x3131, 0] (-1)
        = some (r, buf, log) →
      0 ≤ r ∧ r ≤ 2 ∧ log = List.range r.toNat ∧ buf.length = [7, 7, 7].length ∧
        ∀ i, r.toNat ≤ i → buf[i]? = [7, 7, 7][i]?) :=
  ⟨(C8_output_within_capacity [7, 7, 7] [0x1100, 0x1161, 0x11a8, 0x3131, 0] 2 (-1)
      (by decide)).2 (by decide) (by decide),
   (C8_output_within_capacity [7, 7, 7] [0x1100, 0x1161, 0x11a8, 0x3131, 0] 2 (-1)
      (by decide)).1⟩

/-! ## The converter on a zero-terminated string -/

/-- The scan behind `continue_len` does not look past a terminator. -/
theorem continue_len_terminated : ∀ (w : List Nat) (p : Nat) (rest : List Nat),
    (∀ c ∈ w, c ≠ 0) → continue_len p (w ++ 0 :: rest) = continue_len p w := by
  intro w
  induction w with
  | nil => intro p rest _; simp [continue_len]
  | cons c cs ih =>
    intro p rest hw
    have hcs : ∀ x ∈ cs, x ≠ 0 := fun x hx => hw x (List.mem_cons_of_mem _ hx)
    rw [List.cons_append]
    simp only [continue_len]
    rw [ih c rest hcs]

/-- The scan of `continue_len` stays inside the list. -/
theorem continue_len_le : ∀ (w : List Nat) (p : Nat), continue_len p w ≤ w.length := by
  intro w
  induction w with
  | nil => intro p; simp [continue_len]
  | cons c cs ih =>
    intro p
    simp only [continue_len, List.length_cons]
    split_ifs
    · omega
    · have := ih c; omega

/-- On a zero-terminated string `w` the span length does not depend on a
limit of at least `|w|`, nor on what follows the terminator; it is at most
`|w|`, and at least one when `w` is not empty. -/
theorem hangul_syllable_len_terminated (w rest : List Nat) (max_len : Int)
    (hw : ∀ c ∈ w, c ≠ 0) (hM : (w.length : Int) ≤ max_len) :
    ∃ m : Nat, m ≤ w.length ∧ (w ≠ [] → 1 ≤ m) ∧
      hangul_syllable_len (w ++ 0 :: rest) max_len = some (m : Int) ∧
      hangul_syllable_len (w ++ [0]) w.length = some (m : Int) := by
  cases w with
  | nil =>
    refine ⟨0, by simp, by simp, ?_, ?_⟩
    · simp [hangul_syllable_len]
    · simp [hangul_syllable_len]
  | cons c tl =>
    have hc : c ≠ 0 := hw c (List.mem_cons_self _ _)
    have htl : ∀ x ∈ tl, x ≠ 0 := fun x hx => hw x (List.mem_cons_of_mem _ hx)
    have hle := continue_len_le tl c
    simp only [List.length_cons, Nat.cast_add, Nat.cast_one] at hM
    refine ⟨1 + continue_len c tl, by simp only [List.length_cons]; omega, by omega, ?_, ?_⟩
    · rw [List.cons_append, hangul_syllable_len_eq c _ max_len (by simp), if_neg hc,
        continue_len_terminated tl c rest htl]
      congr 2
      omega
    · rw [List.cons_append, hangul_syllable_len_eq c _ _ (by simp), if_neg hc,
        continue_len_terminated tl c [] htl]
      congr 2
      simp only [List.length_cons, Nat.cast_add, Nat.cast_one]
      omega

/-- The main loop on a zero-terminated string `w`, read with a limit of at
least `|w|`: it writes the expected output, cut to the capacity `outleft`. -/
theorem jamos_to_syllables_loop_exact (destlen : Int) (rest : List Nat) :
    ∀ (k : Nat) (w : List Nat) (fuel : Nat) (inleft outleft n : Int)
      (pre post log : List Nat),
      w.length ≤ k → (∀ c ∈ w, c ≠ 0) → (w.length : Int) ≤ inleft →
      hangul_syllable_len (w ++ 0 :: rest) inleft = some n →
      0 ≤ outleft → outleft.toNat ≤ fuel → outleft.toNat ≤ post.length →
      ∃ out : List Nat,
        out = (((syllable_spans k w).map span_output).flatten).take outleft.toNat ∧
        jamos_to_syllables_loop destlen fuel (w ++ 0 :: rest) pre.length inleft outleft n
            (pre ++ post) log
          = some (destlen - outleft + (out.length : Int), pre ++ out ++ post.drop out.length,
              log ++ List.range' pre.length out.length) := by
  intro k
  induction k with
  | zero =>
    intro w fuel inleft outleft n pre post log hk hw hin hl ho hf hp
    have hw0 : w = [] := List.length_eq_zero.mp (by omega)
    subst hw0
    have hn : n = 0 := by
      simp [hangul_syllable_len] at hl
      omega
    refine ⟨[], by simp [syllable_spans], ?_⟩
    cases fuel <;> rw [jamos_to_syllables_loop, if_neg (by omega)] <;> simp
  | succ k ih =>
    intro w fuel inleft outleft n pre post log hk hw hin hl ho hf hp
    obtain ⟨m, hm1, hm2, hm3, hm4⟩ := hangul_syllable_len_terminated w rest inleft hw hin
    have hn : n = (m : Int) := by
      rw [hm3] at hl
      exact (Option.some.inj hl).symm
    subst hn
    by_cases hw0 : w = []
    · subst hw0
      have hm0 : m = 0 := by simpa using hm1
      subst hm0
      refine ⟨[], ?_, ?_⟩
      · simp only [syllable_spans, hm4]
        simp
      · cases fuel <;> rw [jamos_to_syllables_loop, if_neg (by omega)] <;> simp
    · have hmpos : 1 ≤ m := hm2 hw0
      have hspans : syllable_spans (k + 1) w = w.take m :: syllable_spans k (w.drop m) := by
        simp only [syllable_spans, hm4]
        rw [if_pos (by omega)]
        simp
      rw [hspans]
      by_cases hop : outleft > 0
      · cases fuel with
        | zero => omega
        | succ fuel =>
          rw [jamos_to_syllables_loop, if_pos ⟨by omega, hop⟩]
          have hslen : (m : Int).toNat ≤ (w ++ 0 :: rest).length := by
            simp only [Int.toNat_ofNat, List.length_append, List.length_cons]; omega
          have hb := build_syllable_take (w ++ 0 :: rest) (m : Int).toNat hslen
          have htake : List.take (m : Int).toNat (w ++ 0 :: rest) = w.take m := by
            simp only [Int.toNat_ofNat]
            exact List.take_append_of_le_length hm1
          have hdrop : List.drop (m : Int).toNat (w ++ 0 :: rest) = w.drop m ++ 0 :: rest := by
            simp only [Int.toNat_ofNat]
            exact List.drop_append_of_le_length hm1
          obtain ⟨o, ho_eq, ho1, he⟩ := emit_syllable_eq (w ++ 0 :: rest) (m : Int) outleft
            pre post log _ (by omega) hop hslen hp hb
          rw [htake] at ho_eq
          have ho_eq2 : o = (span_output (w.take m)).take outleft.toNat := by
            rw [ho_eq]; unfold span_output; rfl
          have ho2 : o.length = min outleft.toNat (span_output (w.take m)).length := by
            rw [ho_eq2, List.length_take]
          have hw' : ∀ c ∈ w.drop m, c ≠ 0 := fun c hc => hw c (List.mem_of_mem_drop hc)
          obtain ⟨n1, hl1, _, _⟩ := hangul_syllable_len_total (w.drop m ++ 0 :: rest)
            (inleft - (m : Int)) (by simp)
          rw [he]
          simp only []
          rw [hdrop, hl1]
          simp only []
          rw [← List.length_append]
          obtain ⟨out, hout, hloop⟩ := ih (w.drop m) fuel (inleft - (m : Int))
            (outleft - (o.length : Int)) n1 (pre ++ o) (post.drop o.length)
            (log ++ List.range' pre.length o.length)
            (by rw [List.length_drop]; omega) hw'
            (by rw [List.length_drop]; omega) hl1 (by omega) (by omega)
            (by rw [List.length_drop]; omega)
          rw [hloop]
          refine ⟨o ++ out, ?_, ?_⟩
          · have hcut : (outleft - (o.length : Int)).toNat
                = outleft.toNat - (span_output (w.take m)).length := by omega
            rw [hcut] at hout
            simp only [List.map_cons, List.flatten_cons]
            rw [List.take_append_eq_append_take, ← ho_eq2, ← hout]
          · simp only [List.length_append, Nat.cast_add, List.append_assoc, List.drop_drop,
              Option.some.injEq, Prod.mk.injEq]
            refine ⟨by omega, trivial, ?_⟩
            rw [Nat.add_comm o.length out.length,
              List.range'_append_1 pre.length o.length out.length]
      · have ho0 : outleft = 0 := by omega
        subst ho0
        refine ⟨[], by simp, ?_⟩
        cases fuel <;> rw [jamos_to_syllables_loop, if_neg (by omega)] <;> simp

/-- The scan for the terminator of a zero-terminated string. -/
theorem scan_terminator_terminated : ∀ (w rest : List Nat), (∀ c ∈ w, c ≠ 0) →
    scan_terminator (w ++ 0 :: rest) = some w.length := by
  intro w
  induction w with
  | nil => intro rest _; simp [scan_terminator]
  | cons c cs ih =>
    intro rest hw
    have hc : c ≠ 0 := hw c (List.mem_cons_self _ _)
    have hcs : ∀ x ∈ cs, x ≠ 0 := fun x hx => hw x (List.mem_cons_of_mem _ hx)
    simp [scan_terminator, hc, ih rest hcs]

/-- The converter on a zero-terminated string `w`, read to its terminator
or with a length of at least `|w|`: it writes the expected output cut to the
capacity. -/
theorem hangul_jamos_to_syllables_terminated (dest w rest : List Nat) (destlen srclen : Int)
    (hw : ∀ c ∈ w, c ≠ 0) (hs : srclen < 0 ∨ (w.length : Int) ≤ srclen)
    (hd : 0 ≤ destlen) (hlen : destlen ≤ dest.length) :
    ∃ out : List Nat, out = (expected_output w).take destlen.toNat ∧
      hangul_jamos_to_syllables dest destlen (w ++ 0 :: rest) srclen
        = some ((out.length : Int), out ++ dest.drop out.length, List.range out.length) := by
  have hsl : ∃ sl : Int, (w.length : Int) ≤ sl ∧
      (if srclen < 0 then (scan_terminator (w ++ 0 :: rest)).map Int.ofNat else some srclen)
        = some sl := by
    by_cases h : srclen < 0
    · rw [if_pos h, scan_terminator_terminated w rest hw]
      exact ⟨w.length, le_refl _, rfl⟩
    · rw [if_neg h]
      exact ⟨srclen, by omega, rfl⟩
  obtain ⟨sl, hsl1, hsl2⟩ := hsl
  obtain ⟨n, hn, _, _⟩ := hangul_syllable_len_total (w ++ 0 :: rest) sl (by simp)
  obtain ⟨out, hout, hloop⟩ := jamos_to_syllables_loop_exact destlen rest w.length w
    destlen.toNat sl destlen n [] dest [] (le_refl _) hw hsl1 hn hd (le_refl _) (by omega)
  refine ⟨out, hout, ?_⟩
  unfold hangul_jamos_to_syllables
  rw [hsl2]
  simp only []
  rw [hn]
  simp only []
  simp only [List.length_nil, List.nil_append] at hloop
  rw [hloop, List.range_eq_range']
  simp

/-- No span is cut from the empty string. -/
theorem syllable_spans_nil (k : Nat) : syllable_spans k [] = [] := by
  cases k with
  | zero => rfl
  | succ k => simp [syllable_spans, hangul_syllable_len]

/-- The output expected for a non-empty span is not longer than the span. -/
theorem span_output_length_le (span : List Nat) (h : span ≠ []) :
    (span_output span).length ≤ span.length := by
  have := List.length_pos.mpr h
  unfold span_output
  split_ifs
  · simpa using this
  · exact le_refl _

/-- The expected output is not longer than the string. -/
theorem spans_output_length_le : ∀ (k : Nat) (w : List Nat),
    (((syllable_spans k w).map span_output).flatten).length ≤ w.length := by
  intro k
  induction k with
  | zero => intro w; simp [syllable_spans]
  | succ k ih =>
    intro w
    by_cases hw0 : w = []
    · rw [hw0, syllable_spans_nil]; simp
    · simp only [syllable_spans]
      cases hangul_syllable_len (w ++ [0]) w.length with
      | none => simp
      | some n =>
        simp only []
        by_cases hn : 0 < n
        · rw [if_pos hn]
          have hne : w.take n.toNat ≠ [] := by
            intro h
            have := congrArg List.length h
            rw [List.length_take] at this
            have := List.length_pos.mpr hw0
            simp only [List.length_nil] at *
            omega
          have h1 := span_output_length_le _ hne
          have h2 := ih (w.drop n.toNat)
          simp only [List.map_cons, List.flatten_cons, List.length_append]
          rw [List.length_take] at h1
          rw [List.length_drop] at h2
          omega
        · rw [if_neg hn]; simp

/-- The spans cut from a zero-terminated string partition it. -/
theorem syllable_spans_flatten : ∀ (k : Nat) (w : List Nat),
    w.length ≤ k → (∀ c ∈ w, c ≠ 0) → (syllable_spans k w).flatten = w := by
  intro k
  induction k with
  | zero =>
    intro w hk _
    rw [List.length_eq_zero.mp (Nat.le_zero.mp hk)]
    rfl
  | succ k ih =>
    intro w hk hw
    by_cases hw0 : w = []
    · rw [hw0, syllable_spans_nil]; rfl
    · obtain ⟨m, hm1, hm2, _, hm4⟩ := hangul_syllable_len_terminated w [] w.length hw
        (le_refl _)
      have hmpos := hm2 hw0
      have hw' : ∀ c ∈ w.drop m, c ≠ 0 := fun c hc => hw c (List.mem_of_mem_drop hc)
      simp only [syllable_spans, hm4]
      rw [if_pos (by omega)]
      simp only [Int.toNat_ofNat, List.flatten_cons]
      rw [ih (w.drop m) (by rw [List.length_drop]; omega) hw', List.take_append_drop]

/-- C5: for a source `w` of non-zero codepoints followed by a terminator,
read with `srclen = -1` or `srclen = |w|`, and a capacity `destlen ≥ |w|`,
the converter writes at the start of the destination the concatenation, over
the spans cut from `w` by `hangul_syllable_len` (they partition `w`), of the
syllable a span composes to, or of the span itself when it does not compose,
and it returns the length of that concatenation. -/
theorem C5_converter_output (dest w rest : List Nat) (destlen srclen : Int)
    (hw : ∀ c ∈ w, c ≠ 0) (hs : srclen = -1 ∨ srclen = (w.length : Int))
    (hd : (w.length : Int) ≤ destlen) (hlen : destlen ≤ dest.length) :
    (syllable_spans w.length w).flatten = w ∧
    hangul_jamos_to_syllables dest destlen (w ++ 0 :: rest) srclen
      = some (((expected_output w).length : Int),
          expected_output w ++ dest.drop (expected_output w).length,
          List.range (expected_output w).length) := by
  refine ⟨syllable_spans_flatten _ w (le_refl _) hw, ?_⟩
  obtain ⟨out, hout, h⟩ := hangul_jamos_to_syllables_terminated dest w rest destlen srclen hw
    (by omega) (by omega) hlen
  have hle : (expected_output w).length ≤ w.length := spans_output_length_le _ _
  rw [List.take_of_length_le (by omega)] at hout
  rw [h, hout]

/-- Witness of C5: the six jamo of the source documentation give the one
syllable `0xc00d`. -/
theorem C5_converter_output_witness :
    hangul_jamos_to_syllables [0, 0, 0, 0, 0, 0] 6
        [0x1107, 0x1107, 0x116e, 0x1166, 0x11af, 0x11a8, 0] (-1)
      = some (1, [0xc00d, 0, 0, 0, 0, 0], [0]) :=
  (C5_converter_output [0, 0, 0, 0, 0, 0] [0x1107, 0x1107, 0x116e, 0x1166, 0x11af, 0x11a8] []
    6 (-1) (by decide) (by decide) (by decide) (by decide)).2.trans (by decide)

/-! ## Composition of a decomposed syllable -/

/-- The expected output for a leading, a vowel and an optional trailing, all
conjoinable, is the one syllable they compose to. -/
theorem expected_output_jaso (L V T : Nat)
    (hL : 0x1100 ≤ L ∧ L ≤ 0x1112) (hV : 0x1161 ≤ V ∧ V ≤ 0x1175)
    (hT : T = 0 ∨ (0x11a8 ≤ T ∧ T ≤ 0x11c2)) :
    expected_output (if T ≠ 0 then [L, V, T] else [L, V]) = [hangul_jaso_to_syllable L V T] := by
  have hc := compose_formula L V T hL hV (by omega)
  have hne : hangul_jaso_to_syllable L V T ≠ 0 := by omega
  have hL0 : L ≠ 0 := by omega
  have hV0 : V ≠ 0 := by omega
  have a1 : hangul_is_choseong L = true := by simp [hangul_is_choseong]; omega
  have a2 : hangul_is_choseong V = false := by simp [hangul_is_choseong]; omega
  have a3 : hangul_is_jungseong V = true := by simp [hangul_is_jungseong]; omega
  have a4 : hangul_is_jungseong L = false := by simp [hangul_is_jungseong]; omega
  have b1 : hangul_is_choseong_conjoinable L = true := by
    simp [hangul_is_choseong_conjoinable]; omega
  have b2 : hangul_is_choseong_conjoinable V = false := by
    simp [hangul_is_choseong_conjoinable]; omega
  have b3 : hangul_is_jungseong_conjoinable V = true := by
    simp [hangul_is_jungseong_conjoinable]; omega
  by_cases hT0 : T = 0
  · subst hT0
    simp [expected_output, syllable_spans, hangul_syllable_len, hangul_syllable_len_loop,
      is_syllable_boundary, span_output, span_syllable, compress_run, choseong_compress,
      jungseong_compress, a1, a2, a3, b1, b2, b3, hL0, hV0, hne]
  · have hT1 : 0x11a8 ≤ T ∧ T ≤ 0x11c2 := by omega
    have a5 : hangul_is_jungseong T = false := by simp [hangul_is_jungseong]; omega
    have a6 : hangul_is_jongseong T = true := by simp [hangul_is_jongseong]; omega
    have b4 : hangul_is_choseong_conjoinable T = false := by
      simp [hangul_is_choseong_conjoinable]; omega
    have b5 : hangul_is_jungseong_conjoinable T = false := by
      simp [hangul_is_jungseong_conjoinable]; omega
    have b6 : hangul_is_jongseong_conjoinable T = true := by
      simp [hangul_is_jongseong_conjoinable]; omega
    simp [expected_output, syllable_spans, hangul_syllable_len, hangul_syllable_len_loop,
      is_syllable_boundary, span_output, span_syllable, compress_run, choseong_compress,
      jungseong_compress, jongseong_compress, a1, a2, a3, a5, a6, b1, b2, b3, b4, b5, b6,
      hL0, hV0, hT0, hne]

/-- The jaso string of a syllable is made of non-zero codepoints and its
expected output is the syllable. -/
theorem syllable_jaso_string_spec (s : Nat) (hs : 0xac00 ≤ s ∧ s ≤ 0xd7a3) :
    (∀ c ∈ syllable_jaso_string s, c ≠ 0) ∧ expected_output (syllable_jaso_string s) = [s] := by
  obtain ⟨f1, f2, f3⟩ := decompose_fields s hs.1 hs.2
  unfold syllable_jaso_string
  rw [hangul_syllable_to_jaso_eq s _ _ _ hs.1 hs.2]
  simp only [Option.map_some']
  generalize hL : 0x1100 + (s - 0xac00) / 28 / 21 = L
  generalize hV : 0x1161 + (s - 0xac00) / 28 % 21 = V
  generalize hT : (if (s - 0xac00) % 28 = 0 then 0 else 0x11a7 + (s - 0xac00) % 28) = T
  have hT' : T = 0 ∨ (0x11a8 ≤ T ∧ T ≤ 0x11c2) := by
    split_ifs at hT <;> omega
  have hc := compose_formula L V T (by omega) (by omega) (by omega)
  have hF : filler_or T = 0x11a7 + (s - 0xac00) % 28 := by
    unfold filler_or; split_ifs at hT ⊢ <;> omega
  have hcomp : hangul_jaso_to_syllable L V T = s := by
    rw [hc, hF]; omega
  constructor
  · intro c hcmem
    split_ifs at hcmem <;> simp at hcmem <;> omega
  · rw [expected_output_jaso L V T (by omega) (by omega) hT', hcomp]

/-- C6: for every syllable `s` in `[0xac00, 0xd7a3]`, the converter run on the
zero-terminated jaso string of `s` with a capacity `destlen ≥ 1` writes the
one codepoint `s` at index 0 and returns 1. -/
theorem C6_recompose_syllable (s : Nat) (dest rest : List Nat) (destlen srclen : Int)
    (hs : 0xac00 ≤ s ∧ s ≤ 0xd7a3)
    (hsl : srclen = -1 ∨ srclen = ((syllable_jaso_string s).length : Int))
    (hd : 1 ≤ destlen) (hlen : destlen ≤ dest.length) :
    hangul_jamos_to_syllables dest destlen (syllable_jaso_string s ++ 0 :: rest) srclen
      = some (1, s :: dest.drop 1, [0]) := by
  obtain ⟨hnz, hexp⟩ := syllable_jaso_string_spec s hs
  obtain ⟨out, hout, h⟩ := hangul_jamos_to_syllables_terminated dest
    (syllable_jaso_string s) rest destlen srclen hnz (by omega) (by omega) hlen
  rw [hexp, List.take_of_length_le (by simp; omega)] at hout
  rw [h, hout]
  rfl

/-- Witness of C6: the string `[0x1100, 0x1161]` of the syllable `0xac00`. -/
theorem C6_recompose_syllable_witness :
    syllable_jaso_string 0xac00 = [0x1100, 0x1161] ∧
    hangul_jamos_to_syllables [7, 7] 1 [0x1100, 0x1161, 0] (-1) = some (1, [0xac00, 7], [0]) :=
  ⟨by decide,
   C6_recompose_syllable 0xac00 [7, 7] [] 1 (-1) (by decide) (by decide) (by decide)
    (by decide)⟩

/-! ## Verbatim fallback -/

/-- C9: for a zero-terminated source `w` that is a single span
(`hangul_syllable_len` returns `|w|`) and does not compose (`build_syllable`
returns 0), the converter with capacity `destlen ≥ |w|` writes the
codepoints of `w` unchanged and in order, and returns `|w|`. -/
theorem C9_verbatim_fallback (dest w rest : List Nat) (destlen srclen : Int)
    (hw : ∀ c ∈ w, c ≠ 0)
    (hspan : hangul_syllable_len (w ++ 0 :: rest) w.length = some (w.length : Int))
    (hfail : build_syllable (w ++ 0 :: rest) w.length = some 0)
    (hs : srclen = -1 ∨ srclen = (w.length : Int))
    (hd : (w.length : Int) ≤ destlen) (hlen : destlen ≤ dest.length) :
    hangul_jamos_to_syllables dest destlen (w ++ 0 :: rest) srclen
      = some ((w.length : Int), w ++ dest.drop w.length, List.range w.length) := by
  have hexp : expected_output w = w := by
    unfold expected_output
    cases hwl : w.length with
    | zero =>
      rw [List.length_eq_zero.mp hwl]; rfl
    | succ k =>
      obtain ⟨m, _, _, hm3, hm4⟩ := hangul_syllable_len_terminated w rest w.length hw
        (le_refl _)
      rw [hspan] at hm3
      have hm : m = w.length := by
        have := Option.some.inj hm3
        omega
      rw [hm] at hm4
      have h0 : span_syllable w = 0 := by
        have := build_syllable_eq w (0 :: rest)
        rw [hfail] at this
        exact (Option.some.inj this).symm
      simp only [syllable_spans, hm4]
      rw [if_pos (by omega)]
      simp [syllable_spans_nil, span_output, h0]
  obtain ⟨out, hout, h⟩ := hangul_jamos_to_syllables_terminated dest w rest destlen srclen hw
    (by omega) (by omega) hlen
  rw [hexp, List.take_of_length_le (by omega)] at hout
  rw [h, hout]

/-- Witness of C9: a lone trailing consonant `0x11a8` and a lone
compatibility letter `0x3131` are copied unchanged. -/
theorem C9_verbatim_fallback_witness :
    hangul_jamos_to_syllables [7, 7] 1 [0x11a8, 0] (-1) = some (1, [0x11a8, 7], [0]) ∧
    hangul_jamos_to_syllables [7, 7] 2 [0x3131, 0] 1 = some (1, [0x3131, 7], [0]) :=
  ⟨C9_verbatim_fallback [7, 7] [0x11a8] [] 1 (-1) (by decide) (by decide) (by decide)
      (by decide) (by decide) (by decide),
   C9_verbatim_fallback [7, 7] [0x3131] [] 2 1 (by decide) (by decide) (by decide)
      (by decide) (by decide) (by decide)⟩

/-! ## The length limits -/

/-- The loop of `hangul_syllable_len` stops at the limit. -/
theorem hangul_syllable_len_loop_le (str : List Nat) : ∀ (k i r : Nat),
    hangul_syllable_len_loop str k i = some r → r ≤ i + k := by
  intro k
  induction k with
  | zero =>
    intro i r h
    simp only [hangul_syllable_len_loop, Option.some.injEq] at h
    omega
  | succ k ih =>
    intro i r h
    rw [hangul_syllable_len_loop] at h
    cases hc : str[i]? with
    | none => rw [hc] at h; simp at h
    | some c =>
      rw [hc] at h
      simp only [] at h
      by_cases hz : c = 0
      · rw [if_pos hz] at h
        have := Option.some.inj h
        omega
      · rw [if_neg hz] at h
        cases hp : str[i - 1]? with
        | none => rw [hp] at h; simp at h
        | some p =>
          rw [hp] at h
          simp only [] at h
          by_cases hb : is_syllable_boundary p c = true
          · rw [if_pos hb] at h
            have := Option.some.inj h
            omega
          · rw [if_neg hb] at h
            have := ih (i + 1) r h
            omega

/-- With a limit of at least one, the span length does not exceed the
limit. -/
theorem hangul_syllable_len_le (str : List Nat) (max_len n : Int) (hm : 1 ≤ max_len)
    (h : hangul_syllable_len str max_len = some n) : 0 ≤ n ∧ n ≤ max_len := by
  unfold hangul_syllable_len at h
  cases hc : str[0]? with
  | none => rw [hc] at h; simp at h
  | some c =>
    rw [hc] at h
    simp only [] at h
    by_cases hz : c = 0
    · rw [if_neg (by simpa using hz)] at h
      have := Option.some.inj h
      omega
    · rw [if_pos hz] at h
      cases hl : hangul_syllable_len_loop str (max_len - 1).toNat 1 with
      | none => rw [hl] at h; simp at h
      | some r =>
        rw [hl] at h
        have hr := hangul_syllable_len_loop_le str _ _ _ hl
        have hn : n = (r : Int) := (Option.some.inj h).symm
        omega

/-- C10, failing input: with a limit `max_len = 0` and a non-zero first
codepoint, `hangul_syllable_len` returns 1, which exceeds the limit. -/
theorem C10_len_exceeds_zero_limit :
    hangul_syllable_len [0x1100, 0x1161, 0] 0 = some 1 ∧
    hangul_syllable_len [0x3131, 0] 0 = some 1 := by
  decide

/-- C7, failing input: two sources that agree on their first `srclen = 2`
codepoints give different results, and with `srclen = 0` the codepoint at
index 0 is read and written. -/
theorem C7_reads_past_srclen :
    hangul_jamos_to_syllables [7, 7, 7] 3 [0x1100, 0x1161, 0x3131, 0] 2
      = some (2, [0xac00, 0x3131, 7], [0, 1]) ∧
    hangul_jamos_to_syllables [7, 7, 7] 3 [0x1100, 0x1161, 0, 0] 2
      = some (1, [0xac00, 7, 7], [0]) ∧
    hangul_jamos_to_syllables [7, 7, 7] 3 [0x3131, 0] 0 = some (1, [0x3131, 7, 7], [0]) := by
  decide

/-! ## Classifier and compatibility mapper: theorems -/

/-- C17, counterexample: the filler `0x11a7` is in the conjoinable trailing
range and is not a trailing consonant. -/
theorem C17_filler_not_jongseong :
    ¬ (hangul_is_jongseong_conjoinable 0x11a7 = true → hangul_is_jongseong 0x11a7 = true) := by
  decide

/-- C17, amended: a conjoinable leading consonant is a leading consonant, a
conjoinable vowel is a vowel, and a codepoint of the conjoinable trailing
range is a trailing consonant or the filler `0x11a7`. -/
theorem C17_conjoinable_subset (c : Nat) :
    (hangul_is_choseong_conjoinable c = true → hangul_is_choseong c = true) ∧
    (hangul_is_jungseong_conjoinable c = true → hangul_is_jungseong c = true) ∧
    (hangul_is_jongseong_conjoinable c = true →
      hangul_is_jongseong c = true ∨ c = 0x11a7) := by
  simp only [hangul_is_choseong_conjoinable, hangul_is_choseong,
    hangul_is_jungseong_conjoinable, hangul_is_jungseong, hangul_is_jongseong_conjoinable,
    hangul_is_jongseong, Bool.and_eq_true, decide_eq_true_eq]
  omega

/-- Witness of C17 at `0x1100`, `0x1161` and `0x11a7`. -/
theorem C17_conjoinable_subset_witness :
    hangul_is_choseong 0x1100 = true ∧ hangul_is_jungseong 0x1161 = true ∧
    (hangul_is_jongseong 0x11a7 = true ∨ 0x11a7 = 0x11a7) :=
  ⟨(C17_conjoinable_subset 0x1100).1 (by decide),
   (C17_conjoinable_subset 0x1161).2.1 (by decide),
   (C17_conjoinable_subset 0x11a7).2.2 (by decide)⟩

/-- C15: a jaso inside the conjoinable range of its class is mapped to a
compatibility letter, a codepoint of `[0x3131, 0x318e]`; every other
codepoint is returned unchanged. -/
theorem C15_jaso_to_jamo (c : Nat) :
    (is_conjoinable_jaso c = true →
      ∃ j, hangul_jaso_to_jamo c = some j ∧ hangul_is_jamo j = true ∧
        0x3131 ≤ j ∧ j ≤ 0x318e) ∧
    (is_conjoinable_jaso c = false → hangul_jaso_to_jamo c = some c) := by
  constructor
  · intro h
    simp only [is_conjoinable_jaso, hangul_is_choseong_conjoinable, hangul_is_choseong,
      hangul_is_jungseong_conjoinable, hangul_is_jungseong, hangul_is_jongseong_conjoinable,
      hangul_is_jongseong, Bool.and_eq_true, Bool.or_eq_true, decide_eq_true_eq] at h
    have hr : (0x1100 ≤ c ∧ c ≤ 0x1112) ∨ (0x1161 ≤ c ∧ c ≤ 0x1175) ∨
        (0x11a8 ≤ c ∧ c ≤ 0x11c2) := by omega
    rcases hr with ⟨h1, h2⟩ | ⟨h1, h2⟩ | ⟨h1, h2⟩
    · interval_cases c <;> exact ⟨_, rfl, by decide, by decide, by decide⟩
    · interval_cases c <;> exact ⟨_, rfl, by decide, by decide, by decide⟩
    · interval_cases c <;> exact ⟨_, rfl, by decide, by decide, by decide⟩
  · intro h
    simp only [is_conjoinable_jaso, hangul_is_choseong_conjoinable, hangul_is_choseong,
      hangul_is_jungseong_conjoinable, hangul_is_jungseong, hangul_is_jongseong_conjoinable,
      hangul_is_jongseong, Bool.and_eq_true, Bool.or_eq_false_iff, Bool.and_eq_false_iff,
      decide_eq_true_eq, decide_eq_false_iff_not] at h
    have h1 : ¬ (0x1100 ≤ c ∧ c ≤ 0x1112) := by omega
    have h2 : ¬ (0x1161 ≤ c ∧ c ≤ 0x1175) := by omega
    have h3 : ¬ (0x11a8 ≤ c ∧ c ≤ 0x11c2) := by omega
    simp [hangul_jaso_to_jamo, h1, h2, h3]

/-- Witness of C15: the leading `0x1100` maps to the letter `0x3131`, and the
filler `0x11a7` and the letter `0x3131` are returned unchanged. -/
theorem C15_jaso_to_jamo_witness :
    (∃ j, hangul_jaso_to_jamo 0x1100 = some j ∧ hangul_is_jamo j = true ∧
      0x3131 ≤ j ∧ j ≤ 0x318e) ∧
    hangul_jaso_to_jamo 0x11a7 = some 0x11a7 ∧ hangul_jaso_to_jamo 0x3131 = some 0x3131 :=
  ⟨(C15_jaso_to_jamo 0x1100).1 (by decide), (C15_jaso_to_jamo 0x11a7).2 (by decide),
   (C15_jaso_to_jamo 0x3131).2 (by decide)⟩

/-- C16, counterexample: for `c = 0x11aa` (kiyeok-sios) the outputs are
`jong = 0x11a8` and `cho = 0x1109` (sios), and the leading counterpart of
`jong` is `0x1100` (kiyeok), not `cho`. -/
theorem C16_cho_not_counterpart_of_jong :
    hangul_jongseong_dicompose 0x11aa = some (0x11a8, 0x1109) ∧
    hangul_jongseong_to_choseong 0x11a8 = some 0x1100 ∧
    hangul_jongseong_to_choseong 0x11a8 ≠ some 0x1109 := by
  decide

/-- C16, amended: for every `c` in `[0x11a8, 0x11c2]` the outputs `jong` and
`cho` are defined, and when `jong` is non-zero `cho` is the leading
counterpart of the second component of `c`: for the doubled consonants
`0x11a9` and `0x11bb` it is `hangul_jongseong_to_choseong jong`, and for
every other compound it is `hangul_jongseong_to_choseong c` and differs from
`hangul_jongseong_to_choseong jong`. -/
theorem C16_dicompose_second_component (c : Nat) (hc : 0x11a8 ≤ c ∧ c ≤ 0x11c2) :
    ∃ jong cho, hangul_jongseong_dicompose c = some (jong, cho) ∧
      (jong ≠ 0 →
        ((c = 0x11a9 ∨ c = 0x11bb) → hangul_jongseong_to_choseong jong = some cho) ∧
        (¬ (c = 0x11a9 ∨ c = 0x11bb) →
          hangul_jongseong_to_choseong c = some cho ∧
          hangul_jongseong_to_choseong jong ≠ some cho)) := by
  obtain ⟨h1, h2⟩ := hc
  interval_cases c <;> exact ⟨_, _, rfl, by decide⟩

/-- Witness of C16 at the compound `0x11b0` (rieul-kiyeok). -/
theorem C16_dicompose_second_component_witness :
    ∃ jong cho, hangul_jongseong_dicompose 0x11b0 = some (jong, cho) ∧
      (jong ≠ 0 →
        (((0x11b0 : Nat) = 0x11a9 ∨ (0x11b0 : Nat) = 0x11bb) →
          hangul_jongseong_to_choseong jong = some cho) ∧
        (¬ ((0x11b0 : Nat) = 0x11a9 ∨ (0x11b0 : Nat) = 0x11bb) →
          hangul_jongseong_to_choseong 0x11b0 = some cho ∧
          hangul_jongseong_to_choseong jong ≠ some cho)) :=
  C16_dicompose_second_component 0x11b0 (by decide)

/-! ## Cluster compressors: theorems -/

/-- Splitting a compound trailing consonant other than `0x11ac` and merging
it again gives it back. -/
theorem dicompose_compress_roundtrip (c : Nat) (hc : 0x11a8 ≤ c ∧ c ≤ 0x11c2)
    (hne : c ≠ 0x11ac) :
    ∃ jong cho t, hangul_jongseong_dicompose c = some (jong, cho) ∧
      hangul_choseong_to_jongseong cho = some t ∧
      (jong ≠ 0 → jongseong_compress jong t = c) := by
  obtain ⟨h1, h2⟩ := hc
  interval_cases c <;> first | exact absurd rfl hne | exact ⟨_, _, _, rfl, rfl, by decide⟩

/-- C19, failing input: `0x11ac` (nieun-cieuc) splits into `jong = 0x11ab`
and `cho = 0x110c`, whose trailing form is `0x11bd`, and
`jongseong_compress 0x11ab 0x11bd` is `0`, not `0x11ac`. -/
theorem C19_nieun_cieuc_not_merged :
    hangul_jongseong_dicompose 0x11ac = some (0x11ab, 0x110c) ∧
    hangul_choseong_to_jongseong 0x110c = some 0x11bd ∧
    jongseong_compress 0x11ab 0x11bd = 0 := by
  decide

/-- Case analysis on a conditional value. -/
theorem ite_cases {P : Prop} [Decidable P] {x y : Nat} (Q : Nat → Prop)
    (hx : P → Q x) (hy : ¬ P → Q y) : Q (if P then x else y) := by
  by_cases h : P
  · rw [if_pos h]; exact hx h
  · rw [if_neg h]; exact hy h

/-- A successful merge of two leading consonants or of two vowels differs
from both letters, and so does a successful merge of two trailing
consonants other than the pair `(0x11ab, 0x11b0)`. -/
theorem compress_differs (a b : Nat) (ha : a ≠ 0) :
    (choseong_compress a b = 0 ∨
      (choseong_compress a b ≠ a ∧ choseong_compress a b ≠ b)) ∧
    (jungseong_compress a b = 0 ∨
      (jungseong_compress a b ≠ a ∧ jungseong_compress a b ≠ b)) ∧
    (¬ (a = 0x11ab ∧ b = 0x11b0) →
      (jongseong_compress a b = 0 ∨
        (jongseong_compress a b ≠ a ∧ jongseong_compress a b ≠ b))) := by
  refine ⟨?_, ?_, ?_⟩
  · unfold choseong_compress
    refine ite_cases (fun r => r = 0 ∨ (r ≠ a ∧ r ≠ b)) (fun h => absurd h ha) (fun _ => ?_)
    repeat' refine ite_cases (fun r => r = 0 ∨ (r ≠ a ∧ r ≠ b)) (fun h => ?_) (fun _ => ?_)
    all_goals first
      | exact Or.inl rfl
      | (obtain ⟨rfl, rfl⟩ := h; decide)
  · unfold jungseong_compress
    refine ite_cases (fun r => r = 0 ∨ (r ≠ a ∧ r ≠ b)) (fun h => absurd h ha) (fun _ => ?_)
    repeat' refine ite_cases (fun r => r = 0 ∨ (r ≠ a ∧ r ≠ b)) (fun h => ?_) (fun _ => ?_)
    all_goals first
      | exact Or.inl rfl
      | (obtain ⟨rfl, rfl⟩ := h; decide)
  · intro hne
    unfold jongseong_compress
    refine ite_cases (fun r => r = 0 ∨ (r ≠ a ∧ r ≠ b)) (fun h => absurd h ha) (fun _ => ?_)
    repeat' refine ite_cases (fun r => r = 0 ∨ (r ≠ a ∧ r ≠ b)) (fun h => ?_) (fun _ => ?_)
    all_goals first
      | exact Or.inl rfl
      | exact absurd h hne
      | (obtain ⟨rfl, rfl⟩ := h; decide)

/-- C20, failing input: `jongseong_compress 0x11ab 0x11b0` returns `0x11ab`,
a non-zero result equal to its first argument. -/
theorem C20_merge_returns_first_letter :
    jongseong_compress 0x11ab 0x11b0 = 0x11ab ∧ (0x11ab : Nat) ≠ 0 := by
  decide

/-! ## Boundary segmenter: theorems -/

/-- A pair is a boundary exactly when it is not one of the five continuing
pairs. -/
theorem is_syllable_boundary_eq (a b : Nat) :
    is_syllable_boundary a b = !continuing_pair a b := by
  have d1 : hangul_is_choseong a = true → hangul_is_jungseong a = false ∧
      hangul_is_jongseong a = false := by
    simp only [hangul_is_choseong, hangul_is_jungseong, hangul_is_jongseong,
      Bool.and_eq_true, Bool.and_eq_false_iff, decide_eq_true_eq, decide_eq_false_iff_not]
    omega
  have d2 : hangul_is_jungseong a = true → hangul_is_jongseong a = false := by
    simp only [hangul_is_jungseong, hangul_is_jongseong,
      Bool.and_eq_true, Bool.and_eq_false_iff, decide_eq_true_eq, decide_eq_false_iff_not]
    omega
  have e1 : hangul_is_choseong b = true → hangul_is_jungseong b = false ∧
      hangul_is_jongseong b = false := by
    simp only [hangul_is_choseong, hangul_is_jungseong, hangul_is_jongseong,
      Bool.and_eq_true, Bool.and_eq_false_iff, decide_eq_true_eq, decide_eq_false_iff_not]
    omega
  have e2 : hangul_is_jungseong b = true → hangul_is_jongseong b = false := by
    simp only [hangul_is_jungseong, hangul_is_jongseong,
      Bool.and_eq_true, Bool.and_eq_false_iff, decide_eq_true_eq, decide_eq_false_iff_not]
    omega
  unfold is_syllable_boundary continuing_pair
  cases h1 : hangul_is_choseong a <;> cases h2 : hangul_is_jungseong a <;>
    cases h3 : hangul_is_jongseong a <;> cases h4 : hangul_is_choseong b <;>
    cases h5 : hangul_is_jungseong b <;> cases h6 : hangul_is_jongseong b <;>
    simp_all

/-- The loop of `hangul_syllable_len`, whenever it is defined: it returns the
first index from `i` on that is the limit or does not continue. -/
theorem hangul_syllable_len_loop_spec (str : List Nat) : ∀ (k i r : Nat),
    1 ≤ i → hangul_syllable_len_loop str k i = some r →
    i ≤ r ∧ r ≤ i + k ∧ (∀ j, i ≤ j → j < r → continues_at str j = true) ∧
      (r < i + k → continues_at str r = false) := by
  intro k
  induction k with
  | zero =>
    intro i r _ h
    simp only [hangul_syllable_len_loop, Option.some.injEq] at h
    subst h
    exact ⟨le_refl _, le_refl _, fun j h1 h2 => absurd h1 (by omega), fun h => absurd h (by omega)⟩
  | succ k ih =>
    intro i r hi h
    rw [hangul_syllable_len_loop] at h
    cases hc : str[i]? with
    | none => rw [hc] at h; simp at h
    | some c =>
      rw [hc] at h
      simp only [] at h
      by_cases hz : c = 0
      · rw [if_pos hz] at h
        have hr : i = r := Option.some.inj h
        subst hr
        refine ⟨le_refl _, by omega, fun j h1 h2 => absurd h1 (by omega), fun _ => ?_⟩
        unfold continues_at
        rw [hc]
        cases str[i - 1]? <;> simp [hz]
      · rw [if_neg hz] at h
        cases hp : str[i - 1]? with
        | none => rw [hp] at h; simp at h
        | some p =>
          rw [hp] at h
          simp only [] at h
          have hat : continues_at str i = !is_syllable_boundary p c := by
            unfold continues_at
            rw [hc, hp, is_syllable_boundary_eq]
            simp [hz]
          by_cases hb : is_syllable_boundary p c = true
          · rw [if_pos hb] at h
            have hr : i = r := Option.some.inj h
            subst hr
            refine ⟨le_refl _, by omega, fun j h1 h2 => absurd h1 (by omega), fun _ => ?_⟩
            rw [hat, hb]; rfl
          · rw [if_neg hb] at h
            obtain ⟨a1, a2, a3, a4⟩ := ih (i + 1) r (by omega) h
            refine ⟨by omega, by omega, ?_, fun hlt => a4 (by omega)⟩
            intro j h1 h2
            by_cases hj : j = i
            · rw [hj, hat]
              simpa using hb
            · exact a3 j (by omega) h2

/-- The loop of `hangul_syllable_len` is defined when the array holds the
codepoints up to the limit. -/
theorem hangul_syllable_len_loop_defined (str : List Nat) : ∀ (k i : Nat),
    1 ≤ i → i + k ≤ str.length → ∃ r, hangul_syllable_len_loop str k i = some r := by
  intro k
  induction k with
  | zero => intro i _ _; exact ⟨i, rfl⟩
  | succ k ih =>
    intro i hi hlen
    rw [hangul_syllable_len_loop]
    rw [List.getElem?_eq_getElem (show i < str.length by omega),
      List.getElem?_eq_getElem (show i - 1 < str.length by omega)]
    simp only []
    split_ifs
    · exact ⟨_, rfl⟩
    · exact ⟨_, rfl⟩
    · exact ih (i + 1) (by omega) (by omega)

/-- Meaning of `continues_to`. -/
theorem continues_to_iff (str : List Nat) (n : Nat) :
    continues_to str n = true ↔ ∀ j, 1 ≤ j → j < n → continues_at str j = true := by
  unfold continues_to
  rw [List.all_eq_true]
  constructor
  · intro h j h1 h2
    have := h j (List.mem_range.mpr h2)
    simp only [Bool.or_eq_true, beq_iff_eq] at this
    rcases this with h0 | h0
    · omega
    · exact h0
  · intro h j hj
    simp only [Bool.or_eq_true, beq_iff_eq]
    by_cases h0 : j = 0
    · exact Or.inl h0
    · exact Or.inr (h j (by omega) (List.mem_range.mp hj))

/-- C12: for a sequence with a non-zero first codepoint and a limit
`max_len ≥ 1`, whenever `hangul_syllable_len` is defined it returns the
greatest `n` with `1 ≤ n ≤ max_len` such that no codepoint at index
`1 .. n - 1` is the terminator and every adjacent pair before index `n` is a
continuing pair; it is defined when the sequence holds a terminator or at
least `max_len` codepoints; and a pair is a boundary exactly when it is not
one of the five continuing pairs. -/
theorem C12_len_is_greatest_run (c : Nat) (tl : List Nat) (max_len : Int)
    (hc : c ≠ 0) (hm : 1 ≤ max_len) :
    (∀ n, hangul_syllable_len (c :: tl) max_len = some n →
      1 ≤ n ∧ n ≤ max_len ∧ continues_to (c :: tl) n.toNat = true ∧
      ∀ n1 : Nat, 1 ≤ n1 → (n1 : Int) ≤ max_len → continues_to (c :: tl) n1 = true →
        (n1 : Int) ≤ n) ∧
    ((0 ∈ tl ∨ max_len ≤ ((c :: tl).length : Int)) →
      ∃ n, hangul_syllable_len (c :: tl) max_len = some n) ∧
    (∀ a b, is_syllable_boundary a b = !continuing_pair a b) := by
  refine ⟨?_, ?_, is_syllable_boundary_eq⟩
  · intro n h
    unfold hangul_syllable_len at h
    simp only [List.getElem?_cons_zero] at h
    rw [if_pos hc] at h
    cases hl : hangul_syllable_len_loop (c :: tl) (max_len - 1).toNat 1 with
    | none => rw [hl] at h; simp at h
    | some r =>
      rw [hl] at h
      have hn : n = (r : Int) := (Option.some.inj h).symm
      obtain ⟨a1, a2, a3, a4⟩ := hangul_syllable_len_loop_spec (c :: tl) _ 1 r (le_refl _) hl
      subst hn
      refine ⟨by omega, by omega, ?_, ?_⟩
      · rw [continues_to_iff]
        intro j h1 h2
        exact a3 j h1 (by simpa using h2)
      · intro n1 h1 h2 h3
        by_contra hlt
        rw [continues_to_iff] at h3
        have hf := a4 (by omega)
        have ht := h3 r (by omega) (by omega)
        rw [hf] at ht
        exact Bool.false_ne_true ht
  · intro h
    rcases h with h | h
    · obtain ⟨n, hn, _, _⟩ := hangul_syllable_len_total (c :: tl) max_len
        (List.mem_cons_of_mem _ h)
      exact ⟨n, hn⟩
    · unfold hangul_syllable_len
      simp only [List.getElem?_cons_zero]
      rw [if_pos hc]
      obtain ⟨r, hr⟩ := hangul_syllable_len_loop_defined (c :: tl) (max_len - 1).toNat 1
        (le_refl _) (by omega)
      exact ⟨_, by rw [hr]; rfl⟩

/-- Witness of C12: the six jamo of the source documentation, cut by the
limit 4 and by a vowel followed by a leading consonant. -/
theorem C12_len_is_greatest_run_witness :
    hangul_syllable_len [0x1107, 0x1107, 0x116e, 0x1166, 0x11af, 0x11a8, 0] 4 = some 4 ∧
    (∃ n, hangul_syllable_len [0x1107, 0x116e, 0x1107, 0x116e, 0] 9 = some n ∧
      continues_to [0x1107, 0x116e, 0x1107, 0x116e, 0] n.toNat = true) := by
  refine ⟨by decide, ?_⟩
  obtain ⟨n, hn⟩ := (C12_len_is_greatest_run 0x1107 [0x116e, 0x1107, 0x116e, 0] 9
    (by decide) (by decide)).2.1 (Or.inl (by decide))
  exact ⟨n, hn, ((C12_len_is_greatest_run 0x1107 [0x116e, 0x1107, 0x116e, 0] 9
    (by decide) (by decide)).1 n hn).2.2.1⟩

/-- C11, counterexample: the terminator `0` is not a jaso codepoint, and on a
sequence that starts with it `hangul_syllable_len` returns 0, not 1. -/
theorem C11_terminator_first :
    hangul_is_jaso 0 = false ∧ hangul_syllable_len [0, 0x3131, 0] 2 = some 0 ∧
    hangul_syllable_len [0, 0x3131, 0] 2 ≠ some 1 := by
  decide

/-- C11, amended: for a sequence whose first codepoint is non-zero and not a
jaso codepoint, with a limit `max_len ≥ 1` and a second codepoint to read
when `max_len ≥ 2`, `hangul_syllable_len` returns 1 whatever follows. -/
theorem C11_non_jaso_first (c : Nat) (tl : List Nat) (max_len : Int)
    (hc : c ≠ 0) (hj : hangul_is_jaso c = false) (hm : 1 ≤ max_len)
    (htl : tl ≠ [] ∨ max_len ≤ 1) :
    hangul_syllable_len (c :: tl) max_len = some 1 := by
  unfold hangul_syllable_len
  simp only [List.getElem?_cons_zero]
  rw [if_pos hc]
  cases hk : (max_len - 1).toNat with
  | zero => rfl
  | succ k =>
    cases tl with
    | nil =>
      rcases htl with h | h
      · exact absurd rfl h
      · omega
    | cons b bs =>
      rw [hangul_syllable_len_loop]
      simp only [List.getElem?_cons_succ, List.getElem?_cons_zero, Nat.sub_self]
      by_cases hb : b = 0
      · rw [if_pos hb]; rfl
      · rw [if_neg hb]
        have hbd : is_syllable_boundary c b = true := by
          simp only [hangul_is_jaso, Bool.or_eq_false_iff] at hj
          simp [is_syllable_boundary, hj.1.1, hj.1.2, hj.2]
        rw [if_pos hbd]; rfl

/-- Witness of C11: the compatibility letter `0x3131` followed by a full
syllable string. -/
theorem C11_non_jaso_first_witness :
    hangul_syllable_len [0x3131, 0x1100, 0x1161, 0x11a8, 0] 5 = some 1 :=
  C11_non_jaso_first 0x3131 [0x1100, 0x1161, 0x11a8, 0] 5 (by decide) (by decide)
    (by decide) (Or.inl (by decide))

/-- A pair of jaso is not a boundary when it is a continuing pair. -/
theorem not_boundary_of_continuing (a b : Nat) (h : continuing_pair a b = true) :
    is_syllable_boundary a b = false := by
  rw [is_syllable_boundary_eq, h]; rfl

/-- A jaso is not the terminator. -/
theorem jaso_ne_zero (c : Nat) (h : hangul_is_jaso c = true) : c ≠ 0 := by
  simp only [hangul_is_jaso, hangul_is_choseong, hangul_is_jungseong, hangul_is_jongseong,
    Bool.or_eq_true, Bool.and_eq_true, decide_eq_true_eq] at h
  omega

/-- A codepoint that continues the syllable of `p` is counted by
`continue_len`. -/
theorem continue_len_cons (p c : Nat) (cs : List Nat) (hc : c ≠ 0)
    (h : continuing_pair p c = true) :
    continue_len p (c :: cs) = continue_len c cs + 1 := by
  have hb := not_boundary_of_continuing p c h
  simp [continue_len, hc, hb]

/-- A run of trailing consonants after a vowel or a trailing consonant. -/
theorem continue_len_jongseong : ∀ (Ts : List Nat) (p : Nat) (rest : List Nat),
    (hangul_is_jungseong p = true ∨ hangul_is_jongseong p = true) →
    (∀ c ∈ Ts, hangul_is_jongseong c = true) →
    continue_len p (Ts ++ 0 :: rest) = Ts.length := by
  intro Ts
  induction Ts with
  | nil => intro p rest _ _; simp [continue_len]
  | cons t Ts ih =>
    intro p rest hp hT
    have ht : hangul_is_jongseong t = true := hT t (List.mem_cons_self _ _)
    have hTs : ∀ c ∈ Ts, hangul_is_jongseong c = true :=
      fun c hc => hT c (List.mem_cons_of_mem _ hc)
    have hne : t ≠ 0 := jaso_ne_zero t (by simp [hangul_is_jaso, ht])
    have hcp : continuing_pair p t = true := by
      rcases hp with hp | hp <;> simp [continuing_pair, hp, ht]
    rw [List.cons_append, continue_len_cons p t _ hne hcp, ih t rest (Or.inr ht) hTs]
    rfl

/-- A run of vowels and then trailing consonants, after a leading consonant
when the run of vowels is not empty, or after a vowel. -/
theorem continue_len_jungseong : ∀ (Vs : List Nat) (p : Nat) (Ts rest : List Nat),
    ((hangul_is_choseong p = true ∧ Vs ≠ []) ∨ hangul_is_jungseong p = true) →
    (∀ c ∈ Vs, hangul_is_jungseong c = true) →
    (∀ c ∈ Ts, hangul_is_jongseong c = true) →
    continue_len p (Vs ++ (Ts ++ 0 :: rest)) = Vs.length + Ts.length := by
  intro Vs
  induction Vs with
  | nil =>
    intro p Ts rest hp _ hT
    rcases hp with hp | hp
    · exact absurd rfl hp.2
    · simp [continue_len_jongseong Ts p rest (Or.inl hp) hT]
  | cons v Vs ih =>
    intro p Ts rest hp hV hT
    have hv : hangul_is_jungseong v = true := hV v (List.mem_cons_self _ _)
    have hVs : ∀ c ∈ Vs, hangul_is_jungseong c = true :=
      fun c hc => hV c (List.mem_cons_of_mem _ hc)
    have hne : v ≠ 0 := jaso_ne_zero v (by simp [hangul_is_jaso, hv])
    have hcp : continuing_pair p v = true := by
      rcases hp with hp | hp <;> simp [continuing_pair, hp, hv]
    rw [List.cons_append, continue_len_cons p v _ hne hcp, ih v Ts rest (Or.inr hv) hVs hT]
    simp only [List.length_cons]
    omega

/-- A run of leading consonants, then a non-empty run of vowels, then
trailing consonants, after a leading consonant. -/
theorem continue_len_choseong : ∀ (Ls : List Nat) (p : Nat) (Vs Ts rest : List Nat),
    hangul_is_choseong p = true → Vs ≠ [] →
    (∀ c ∈ Ls, hangul_is_choseong c = true) →
    (∀ c ∈ Vs, hangul_is_jungseong c = true) →
    (∀ c ∈ Ts, hangul_is_jongseong c = true) →
    continue_len p (Ls ++ (Vs ++ (Ts ++ 0 :: rest))) = Ls.length + Vs.length + Ts.length := by
  intro Ls
  induction Ls with
  | nil =>
    intro p Vs Ts rest hp hVne _ hV hT
    simp [continue_len_jungseong Vs p Ts rest (Or.inl ⟨hp, hVne⟩) hV hT]
  | cons l Ls ih =>
    intro p Vs Ts rest hp hVne hL hV hT
    have hl : hangul_is_choseong l = true := hL l (List.mem_cons_self _ _)
    have hLs : ∀ c ∈ Ls, hangul_is_choseong c = true :=
      fun c hc => hL c (List.mem_cons_of_mem _ hc)
    have hne : l ≠ 0 := jaso_ne_zero l (by simp [hangul_is_jaso, hl])
    have hcp : continuing_pair p l = true := by simp [continuing_pair, hp, hl]
    rw [List.cons_append, continue_len_cons p l _ hne hcp, ih l Vs Ts rest hl hVne hLs hV hT]
    simp only [List.length_cons]
    omega

/-- C13: a string of one or more leading consonants, then one or more
vowels, then zero or more trailing consonants, followed by a terminator, is
one syllable: with any limit of at least its length `n`,
`hangul_syllable_len` returns `n`. -/
theorem C13_pattern_is_one_syllable (Ls Vs Ts rest : List Nat) (max_len : Int)
    (hLne : Ls ≠ []) (hVne : Vs ≠ [])
    (hL : ∀ c ∈ Ls, hangul_is_choseong c = true)
    (hV : ∀ c ∈ Vs, hangul_is_jungseong c = true)
    (hT : ∀ c ∈ Ts, hangul_is_jongseong c = true)
    (hm : ((Ls.length + Vs.length + Ts.length : Nat) : Int) ≤ max_len) :
    hangul_syllable_len (Ls ++ Vs ++ Ts ++ 0 :: rest) max_len
      = some ((Ls.length + Vs.length + Ts.length : Nat) : Int) := by
  cases Ls with
  | nil => exact absurd rfl hLne
  | cons l Ls =>
    have hl : hangul_is_choseong l = true := hL l (List.mem_cons_self _ _)
    have hLs : ∀ c ∈ Ls, hangul_is_choseong c = true :=
      fun c hc => hL c (List.mem_cons_of_mem _ hc)
    have hne : l ≠ 0 := jaso_ne_zero l (by simp [hangul_is_jaso, hl])
    have e : l :: Ls ++ Vs ++ Ts ++ 0 :: rest = l :: (Ls ++ (Vs ++ (Ts ++ 0 :: rest))) := by
      simp
    rw [e, hangul_syllable_len_eq l _ max_len (by simp), if_neg hne,
      continue_len_choseong Ls l Vs Ts rest hl hVne hLs hV hT]
    simp only [List.length_cons] at hm ⊢
    congr 2
    omega

/-- Witness of C13: the six jamo of the source documentation give 6. -/
theorem C13_pattern_is_one_syllable_witness :
    hangul_syllable_len [0x1107, 0x1107, 0x116e, 0x1166, 0x11af, 0x11a8, 0] 6 = some 6 :=
  C13_pattern_is_one_syllable [0x1107, 0x1107] [0x116e, 0x1166] [0x11af, 0x11a8] [] 6
    (by decide) (by decide) (by decide) (by decide) (by decide) (by decide)

/-! ## The converter on the vowel pair `0x116e`, `0x1165` -/

/-- C14, counterexample: the vowel compressor merges `0x116e` and `0x1165`
into `0x116f`, not `0x1170`, and the converter writes `0xbda4`, not
`0xbf54`. -/
theorem C14_not_bf54 :
    jungseong_compress 0x116e 0x1165 ≠ 0x1170 ∧
    hangul_jamos_to_syllables [7] 1 [0x1107, 0x116e, 0x1165, 0x11af, 0] 4
      ≠ some (1, [0xbf54], [0]) := by
  decide

/-- C14, amended: the four codepoints `0x1107`, `0x116e`, `0x1165`, `0x11af`
followed by a terminator, converted with a capacity of at least one, give
the count 1 and the single syllable `0xbda4`, the vowel pair being merged
into `0x116f`. -/
theorem C14_converts_to_bda4 (dest rest : List Nat) (destlen srclen : Int)
    (hs : srclen = 4 ∨ srclen = -1) (hd : 1 ≤ destlen) (hlen : destlen ≤ dest.length) :
    jungseong_compress 0x116e 0x1165 = 0x116f ∧
    hangul_jaso_to_syllable 0x1107 0x116f 0x11af = 0xbda4 ∧
    hangul_jamos_to_syllables dest destlen
        ([0x1107, 0x116e, 0x1165, 0x11af] ++ 0 :: rest) srclen
      = some (1, 0xbda4 :: dest.drop 1, [0]) := by
  refine ⟨by decide, by decide, ?_⟩
  obtain ⟨out, hout, h⟩ := hangul_jamos_to_syllables_terminated dest
    [0x1107, 0x116e, 0x1165, 0x11af] rest destlen srclen (by decide)
    (by rcases hs with h | h <;> simp [h]) (by omega) hlen
  have hexp : expected_output [0x1107, 0x116e, 0x1165, 0x11af] = [0xbda4] := by decide
  rw [hexp, List.take_of_length_le (by simp; omega)] at hout
  rw [h, hout]
  rfl

/-- Witness of C14 with a capacity of one. -/
theorem C14_converts_to_bda4_witness :
    hangul_jamos_to_syllables [7, 7] 1 [0x1107, 0x116e, 0x1165, 0x11af, 0] 4
      = some (1, [0xbda4, 7], [0]) :=
  (C14_converts_to_bda4 [7, 7] [] 1 4 (by decide) (by decide) (by decide)).2.2

/-! ## Capacity -/

/-- On a source that holds a terminator, read with any length, the main loop
writes a prefix of one list `full` that does not depend on the capacity. -/
theorem jamos_to_syllables_loop_full : ∀ (L : Nat) (s : List Nat) (inleft n : Int),
    s.length ≤ L → 0 ≤ n → 0 ∈ s.drop n.toNat →
    ∃ full : List Nat, ∀ (destlen : Int) (fuel : Nat) (outleft : Int)
      (pre post log : List Nat),
      0 ≤ outleft → outleft.toNat ≤ fuel → outleft.toNat ≤ post.length →
      jamos_to_syllables_loop destlen fuel s pre.length inleft outleft n (pre ++ post) log
        = some (destlen - outleft + ((full.take outleft.toNat).length : Int),
            pre ++ full.take outleft.toNat ++ post.drop (full.take outleft.toNat).length,
            log ++ List.range' pre.length (full.take outleft.toNat).length) := by
  intro L
  induction L with
  | zero =>
    intro s inleft n hL _ h0
    rw [List.length_eq_zero.mp (Nat.le_zero.mp hL)] at h0
    simp at h0
  | succ L ih =>
    intro s inleft n hL hn h0
    by_cases hnpos : n > 0
    · have hlen := lt_length_of_mem_drop s n.toNat 0 h0
      have hb := build_syllable_take s n.toNat (by omega)
      obtain ⟨n1, hl1, hn1, h01⟩ := hangul_syllable_len_total (s.drop n.toNat) (inleft - n) h0
      obtain ⟨full1, hfull1⟩ := ih (s.drop n.toNat) (inleft - n) n1
        (by rw [List.length_drop]; omega) hn1 h01
      refine ⟨(if span_syllable (s.take n.toNat) ≠ 0 then [span_syllable (s.take n.toNat)]
        else s.take n.toNat) ++ full1, ?_⟩
      intro destlen fuel outleft pre post log ho hf hp
      by_cases hop : outleft > 0
      · cases fuel with
        | zero => omega
        | succ fuel =>
          rw [jamos_to_syllables_loop, if_pos ⟨hnpos, hop⟩]
          obtain ⟨o, ho_eq, ho1, he⟩ := emit_syllable_eq s n outleft pre post log _ hnpos hop
            (by omega) hp hb
          have ho2 : o.length = min outleft.toNat
              (if span_syllable (s.take n.toNat) ≠ 0 then [span_syllable (s.take n.toNat)]
                else s.take n.toNat).length := by
            rw [ho_eq, List.length_take]
          have hsplit : List.take outleft.toNat
              ((if span_syllable (s.take n.toNat) ≠ 0 then [span_syllable (s.take n.toNat)]
                else s.take n.toNat) ++ full1)
              = o ++ full1.take (outleft - (o.length : Int)).toNat := by
            rw [List.take_append_eq_append_take, ← ho_eq]
            congr 2
            omega
          rw [he]
          simp only []
          rw [hl1]
          simp only []
          rw [← List.length_append,
            hfull1 destlen fuel (outleft - (o.length : Int)) (pre ++ o) (post.drop o.length)
              (log ++ List.range' pre.length o.length) (by omega) (by omega)
              (by rw [List.length_drop]; omega),
            hsplit]
          simp only [List.length_append, Nat.cast_add, List.append_assoc, List.drop_drop,
            Option.some.injEq, Prod.mk.injEq]
          refine ⟨by omega, trivial, ?_⟩
          rw [Nat.add_comm o.length
              (List.take (outleft - (o.length : Int)).toNat full1).length,
            List.range'_append_1 pre.length o.length]
      · have ho0 : outleft = 0 := by omega
        subst ho0
        cases fuel <;> rw [jamos_to_syllables_loop, if_neg (by omega)] <;> simp
    · have hn0 : n = 0 := by omega
      subst hn0
      refine ⟨[], ?_⟩
      intro destlen fuel outleft pre post log ho hf hp
      cases fuel <;> rw [jamos_to_syllables_loop, if_neg (by omega)] <;> simp

/-- On a source that holds a terminator, read with any length, the converter
writes the first `destlen` codepoints of one list `full` that does not
depend on the capacity nor on the destination. -/
theorem hangul_jamos_to_syllables_full (src : List Nat) (srclen : Int) (h0 : 0 ∈ src) :
    ∃ full : List Nat, ∀ (dest : List Nat) (destlen : Int),
      0 ≤ destlen → destlen ≤ dest.length →
      hangul_jamos_to_syllables dest destlen src srclen
        = some (((full.take destlen.toNat).length : Int),
            full.take destlen.toNat ++ dest.drop (full.take destlen.toNat).length,
            List.range (full.take destlen.toNat).length) := by
  have hsl : ∃ sl, (if srclen < 0 then (scan_terminator src).map Int.ofNat
      else some srclen) = some sl := by
    by_cases hs : srclen < 0
    · rw [if_pos hs]
      obtain ⟨z, hz⟩ := scan_terminator_total src h0
      exact ⟨_, by rw [hz]; rfl⟩
    · rw [if_neg hs]; exact ⟨_, rfl⟩
  obtain ⟨sl, hsl⟩ := hsl
  obtain ⟨n, hl, hn, h0n⟩ := hangul_syllable_len_total src sl h0
  obtain ⟨full, hfull⟩ := jamos_to_syllables_loop_full src.length src sl n (le_refl _) hn h0n
  refine ⟨full, ?_⟩
  intro dest destlen hd hlen
  unfold hangul_jamos_to_syllables
  rw [hsl]
  simp only []
  rw [hl]
  simp only []
  have h := hfull destlen destlen.toNat destlen [] dest [] hd (le_refl _) (by omega)
  simp only [List.length_nil, List.nil_append] at h
  rw [h, List.range_eq_range']
  simp

/-- C18: for a source that holds a terminator, read with any `srclen`, and
capacities `0 ≤ k ≤ m`, the converter returns a count `r` with capacity `m`
and the count `min k r` with capacity `k`, and the `min k r` codepoints it
writes with capacity `k` are the first `min k r` codepoints it writes with
capacity `m`. -/
theorem C18_capacity_truncates (dest src : List Nat) (srclen k m : Int)
    (h0 : 0 ∈ src) (hk : 0 ≤ k) (hkm : k ≤ m) (hm : m ≤ dest.length) :
    ∃ (r : Int) (bm lm bk lk : List Nat),
      hangul_jamos_to_syllables dest m src srclen = some (r, bm, lm) ∧
      hangul_jamos_to_syllables dest k src srclen = some (min k r, bk, lk) ∧
      bk.take (min k r).toNat = bm.take (min k r).toNat := by
  obtain ⟨full, hfull⟩ := hangul_jamos_to_syllables_full src srclen h0
  have hrm := hfull dest m (by omega) hm
  have hrk := hfull dest k hk (by omega)
  have e1 : (min k ((List.take m.toNat full).length : Int)).toNat
      = (List.take k.toNat full).length := by
    simp only [List.length_take]; omega
  have e2 : ((List.take k.toNat full).length : Int)
      = min k ((List.take m.toNat full).length : Int) := by
    simp only [List.length_take]; omega
  refine ⟨((List.take m.toNat full).length : Int),
    List.take m.toNat full ++ dest.drop (List.take m.toNat full).length,
    List.range (List.take m.toNat full).length,
    List.take k.toNat full ++ dest.drop (List.take k.toNat full).length,
    List.range (List.take k.toNat full).length, hrm, ?_, ?_⟩
  · rw [hrk, e2]
  · have hle : (List.take k.toNat full).length ≤ (List.take m.toNat full).length := by
      rw [List.length_take, List.length_take]; omega
    rw [e1, List.take_left, List.take_append_of_le_length hle, List.take_take,
      List.take_eq_take, List.length_take]
    omega

/-- Witness of C18: a span of five codepoints that does not compose,
converted with capacities 2 and 4. -/
theorem C18_capacity_truncates_witness :
    ∃ (r : Int) (bm lm bk lk : List Nat),
      hangul_jamos_to_syllables [7, 7, 7, 7] 4 [0x1100, 0x1161, 0x11a8, 0x11a8, 0x11a8, 0] (-1)
        = some (r, bm, lm) ∧
      hangul_jamos_to_syllables [7, 7, 7, 7] 2 [0x1100, 0x1161, 0x11a8, 0x11a8, 0x11a8, 0] (-1)
        = some (min 2 r, bk, lk) ∧
      bk.take (min 2 r).toNat = bm.take (min 2 r).toNat :=
  C18_capacity_truncates [7, 7, 7, 7] [0x1100, 0x1161, 0x11a8, 0x11a8, 0x11a8, 0] (-1) 2 4
    (by decide) (by decide) (by decide) (by decide)

/-! ## Idempotence of the conversion -/

/-- The first span of a non-empty zero-terminated string, in closed form. -/
theorem syllable_spans_cons (k c : Nat) (tl : List Nat) (hc : c ≠ 0)
    (htl : ∀ x ∈ tl, x ≠ 0) :
    syllable_spans (k + 1) (c :: tl)
      = (c :: tl.take (continue_len c tl)) :: syllable_spans k (tl.drop (continue_len c tl)) := by
  have hle := continue_len_le tl c
  have h := hangul_syllable_len_eq c (tl ++ [0]) ((c :: tl).length : Int) (by simp)
  rw [if_neg hc, continue_len_terminated tl c [] htl] at h
  have hmin : min (((c :: tl).length : Int) - 1).toNat (continue_len c tl)
      = continue_len c tl := by
    simp only [List.length_cons, Nat.cast_add, Nat.cast_one]; omega
  rw [hmin] at h
  simp only [syllable_spans, List.cons_append, h]
  rw [if_pos (by omega)]
  simp only [Int.toNat_ofNat]
  rw [Nat.add_comm 1, List.take_succ_cons, List.drop_succ_cons]

/-- The scan over `xs` followed by `ys` covers exactly `xs` when it covers
`xs` alone and stops before `ys`. -/
theorem continue_len_append_iff : ∀ (xs : List Nat) (p : Nat) (ys : List Nat),
    continue_len p (xs ++ ys) = xs.length ↔
      (continue_len p xs = xs.length ∧ stops_before (last_of p xs) ys = true) := by
  intro xs
  induction xs with
  | nil =>
    intro p ys
    cases ys with
    | nil => simp [continue_len, stops_before]
    | cons y ys =>
      simp only [List.nil_append, continue_len, List.length_nil, last_of, stops_before,
        Bool.or_eq_true, decide_eq_true_eq, true_and]
      split_ifs with h
      · simp [h]
      · simp [h]
  | cons x xs ih =>
    intro p ys
    have e1 : continue_len p (x :: xs ++ ys)
        = if x = 0 ∨ is_syllable_boundary p x = true then 0
          else continue_len x (xs ++ ys) + 1 := rfl
    have e2 : continue_len p (x :: xs)
        = if x = 0 ∨ is_syllable_boundary p x = true then 0 else continue_len x xs + 1 := rfl
    have e3 : last_of p (x :: xs) = last_of x xs := rfl
    rw [e1, e2, e3, List.length_cons]
    by_cases h : x = 0 ∨ is_syllable_boundary p x = true
    · rw [if_pos h, if_pos h]
      constructor
      · intro h0; omega
      · intro h0; exact absurd h0.1 (by omega)
    · rw [if_neg h, if_neg h]
      have := ih x ys
      constructor
      · intro h0
        have h1 := this.mp (by omega)
        exact ⟨by omega, h1.2⟩
      · intro h0
        have h1 := this.mpr ⟨by omega, h0.2⟩
        omega

/-- A span ends where the scan stops, and the scan covers it. -/
theorem span_covers_and_stops (c : Nat) (tl : List Nat) :
    continue_len c (tl.take (continue_len c tl)) = (tl.take (continue_len c tl)).length ∧
    stops_before (last_of c (tl.take (continue_len c tl))) (tl.drop (continue_len c tl))
      = true := by
  have hle := continue_len_le tl c
  have hlen : (tl.take (continue_len c tl)).length = continue_len c tl := by
    rw [List.length_take]; omega
  have h := (continue_len_append_iff (tl.take (continue_len c tl)) c
    (tl.drop (continue_len c tl))).mp (by rw [List.take_append_drop, hlen])
  exact h

/-- The composer returns 0 or a codepoint of the syllable block. -/
theorem hangul_jaso_to_syllable_range (L V T : Nat) :
    hangul_jaso_to_syllable L V T = 0 ∨
      (0xac00 ≤ hangul_jaso_to_syllable L V T ∧ hangul_jaso_to_syllable L V T ≤ 0xd7a3) := by
  by_cases h1 : 0x1100 ≤ L ∧ L ≤ 0x1112
  · by_cases h2 : 0x1161 ≤ V ∧ V ≤ 0x1175
    · by_cases h3 : T = 0 ∨ (0x11a7 ≤ T ∧ T ≤ 0x11c2)
      · right
        have hc := compose_formula L V T h1 h2 h3
        have hF : 0x11a7 ≤ filler_or T ∧ filler_or T ≤ 0x11c2 := by
          unfold filler_or; split_ifs <;> omega
        omega
      · left
        have h3' : ¬ (0x11a7 ≤ (if T = 0 then 0x11a7 else T) ∧
            (if T = 0 then 0x11a7 else T) ≤ 0x11c2) := by
          split_ifs <;> omega
        simp only [hangul_jaso_to_syllable, hangul_is_choseong_conjoinable,
          hangul_is_jungseong_conjoinable, hangul_is_jongseong_conjoinable]
        simp [h1, h2, h3']
    · left
      simp only [hangul_jaso_to_syllable, hangul_is_choseong_conjoinable,
        hangul_is_jungseong_conjoinable, hangul_is_jongseong_conjoinable]
      simp [h1, h2]
  · left
    simp only [hangul_jaso_to_syllable, hangul_is_choseong_conjoinable,
      hangul_is_jungseong_conjoinable, hangul_is_jongseong_conjoinable]
    simp [h1]

/-- The syllable of a span is 0 or a codepoint of the syllable block. -/
theorem span_syllable_range (span : List Nat) :
    span_syllable span = 0 ∨ (0xac00 ≤ span_syllable span ∧ span_syllable span ≤ 0xd7a3) := by
  unfold span_syllable
  simp only []
  cases compress_run choseong_compress 0
      (span.takeWhile hangul_is_choseong_conjoinable) with
  | none => exact Or.inl rfl
  | some l =>
    cases compress_run jungseong_compress 0
        ((span.dropWhile hangul_is_choseong_conjoinable).takeWhile
          hangul_is_jungseong_conjoinable) with
    | none => exact Or.inl rfl
    | some v =>
      cases compress_run jongseong_compress 0
          (((span.dropWhile hangul_is_choseong_conjoinable).dropWhile
            hangul_is_jungseong_conjoinable).takeWhile hangul_is_jongseong_conjoinable) with
      | none => exact Or.inl rfl
      | some t =>
        simp only []
        split_ifs
        · exact hangul_jaso_to_syllable_range l v t
        · exact Or.inl rfl

/-- A codepoint of the syllable block is in no jaso class and in no
conjoinable range, and is not the terminator. -/
theorem syllable_not_jaso (S : Nat) (h : 0xac00 ≤ S ∧ S ≤ 0xd7a3) :
    S ≠ 0 ∧ hangul_is_choseong S = false ∧ hangul_is_jungseong S = false ∧
      hangul_is_jongseong S = false ∧ hangul_is_choseong_conjoinable S = false ∧
      hangul_is_jungseong_conjoinable S = false ∧
      hangul_is_jongseong_conjoinable S = false := by
  simp only [hangul_is_choseong, hangul_is_jungseong, hangul_is_jongseong,
    hangul_is_choseong_conjoinable, hangul_is_jungseong_conjoinable,
    hangul_is_jongseong_conjoinable, Bool.and_eq_false_iff, decide_eq_false_iff_not]
  omega

/-- A pair with a syllable codepoint on either side is a boundary. -/
theorem boundary_of_syllable (S y : Nat) (h : 0xac00 ≤ S ∧ S ≤ 0xd7a3) :
    is_syllable_boundary S y = true ∧ is_syllable_boundary y S = true := by
  obtain ⟨_, h1, h2, h3, _, _, _⟩ := syllable_not_jaso S h
  rw [is_syllable_boundary_eq, is_syllable_boundary_eq]
  simp [continuing_pair, h1, h2, h3]

/-- A syllable codepoint alone does not compose. -/
theorem span_syllable_singleton (S : Nat) (h : 0xac00 ≤ S ∧ S ≤ 0xd7a3) :
    span_syllable [S] = 0 := by
  obtain ⟨_, _, _, _, h4, h5, h6⟩ := syllable_not_jaso S h
  simp [span_syllable, h4, h5, h6, compress_run]

/-- The expected output of a span is the span, or one codepoint of the
syllable block. -/
theorem span_output_cases (span : List Nat) :
    span_output span = span ∨
      ∃ S, span_output span = [S] ∧ 0xac00 ≤ S ∧ S ≤ 0xd7a3 := by
  unfold span_output
  rcases span_syllable_range span with h | h
  · left; simp [h]
  · right
    exact ⟨span_syllable span, by rw [if_pos (by omega)], h⟩

/-- The expected output of a span is its own expected output. -/
theorem span_output_idem (span : List Nat) :
    span_output (span_output span) = span_output span := by
  rcases span_syllable_range span with h | h
  · have e : span_output span = span := by unfold span_output; simp [h]
    rw [e, e]
  · have e : span_output span = [span_syllable span] := by
      unfold span_output; rw [if_pos (by omega)]
    rw [e]
    unfold span_output
    simp [span_syllable_singleton _ h]

/-- The expected output of a string of non-zero codepoints holds no zero. -/
theorem spans_output_ne_zero : ∀ (k : Nat) (w : List Nat), (∀ c ∈ w, c ≠ 0) →
    ∀ c ∈ ((syllable_spans k w).map span_output).flatten, c ≠ 0 := by
  intro k
  induction k with
  | zero => intro w _ c hc; simp [syllable_spans] at hc
  | succ k ih =>
    intro w hw c hc
    cases w with
    | nil => rw [syllable_spans_nil] at hc; simp at hc
    | cons a tl =>
      have ha : a ≠ 0 := hw a (List.mem_cons_self _ _)
      have htl : ∀ x ∈ tl, x ≠ 0 := fun x hx => hw x (List.mem_cons_of_mem _ hx)
      rw [syllable_spans_cons k a tl ha htl, List.map_cons, List.flatten_cons,
        List.mem_append] at hc
      rcases hc with hc | hc
      · rcases span_output_cases (a :: tl.take (continue_len a tl)) with e | ⟨S, e, hS⟩
        · rw [e] at hc
          rcases List.mem_cons.mp hc with h | h
          · rw [h]; exact ha
          · exact htl c (List.mem_of_mem_take h)
        · rw [e] at hc
          have : c = S := by simpa using hc
          rw [this]
          exact (syllable_not_jaso S hS).1
      · exact ih (tl.drop (continue_len a tl))
          (fun x hx => htl x (List.mem_of_mem_drop hx)) c hc

/-- Where the scan stops before a string, it stops before the expected
output of the string. -/
theorem stops_before_spans_output (k : Nat) (w : List Nat) (l : Nat)
    (hw : ∀ c ∈ w, c ≠ 0) (hk : w.length ≤ k) (h : stops_before l w = true) :
    stops_before l (((syllable_spans k w).map span_output).flatten) = true := by
  cases w with
  | nil => rw [syllable_spans_nil]; rfl
  | cons a tl =>
    have ha : a ≠ 0 := hw a (List.mem_cons_self _ _)
    have htl : ∀ x ∈ tl, x ≠ 0 := fun x hx => hw x (List.mem_cons_of_mem _ hx)
    cases k with
    | zero => simp at hk
    | succ k =>
      rw [syllable_spans_cons k a tl ha htl, List.map_cons, List.flatten_cons]
      rcases span_output_cases (a :: tl.take (continue_len a tl)) with e | ⟨S, e, hS⟩
      · rw [e]
        exact h
      · rw [e]
        simp only [List.singleton_append, stops_before, Bool.or_eq_true, decide_eq_true_eq]
        exact Or.inr (boundary_of_syllable S l hS).2

/-- The spans of the expected output of a string are the expected outputs of
the spans of the string. -/
theorem syllable_spans_output : ∀ (k : Nat) (w : List Nat),
    w.length ≤ k → (∀ c ∈ w, c ≠ 0) →
    ∀ k1, (((syllable_spans k w).map span_output).flatten).length ≤ k1 →
      syllable_spans k1 (((syllable_spans k w).map span_output).flatten)
        = (syllable_spans k w).map span_output := by
  intro k
  induction k with
  | zero =>
    intro w _ _ k1 _
    simp [syllable_spans, syllable_spans_nil]
  | succ k ih =>
    intro w hk hw k1 hk1
    cases w with
    | nil => simp [syllable_spans_nil]
    | cons a tl =>
      have ha : a ≠ 0 := hw a (List.mem_cons_self _ _)
      have htl : ∀ x ∈ tl, x ≠ 0 := fun x hx => hw x (List.mem_cons_of_mem _ hx)
      have hdrop : ∀ x ∈ tl.drop (continue_len a tl), x ≠ 0 :=
        fun x hx => htl x (List.mem_of_mem_drop hx)
      have hdk : (tl.drop (continue_len a tl)).length ≤ k := by
        rw [List.length_drop]; simp only [List.length_cons] at hk; omega
      have hnz := spans_output_ne_zero (k + 1) (a :: tl) hw
      obtain ⟨hcov, hstop⟩ := span_covers_and_stops a tl
      have hstop2 := stops_before_spans_output k _ _ hdrop hdk hstop
      rw [syllable_spans_cons k a tl ha htl] at hk1 hnz ⊢
      rw [List.map_cons, List.flatten_cons] at hk1 hnz ⊢
      have key : ∀ (x : Nat) (xs : List Nat),
          span_output (a :: tl.take (continue_len a tl)) = x :: xs →
          continue_len x xs = xs.length →
          stops_before (last_of x xs)
            (((syllable_spans k (tl.drop (continue_len a tl))).map span_output).flatten)
              = true →
          syllable_spans k1 (span_output (a :: tl.take (continue_len a tl)) ++
              ((syllable_spans k (tl.drop (continue_len a tl))).map span_output).flatten)
            = span_output (a :: tl.take (continue_len a tl)) ::
              (syllable_spans k (tl.drop (continue_len a tl))).map span_output := by
        intro x xs e h1 h2
        rw [e] at hk1 hnz ⊢
        have hm := (continue_len_append_iff xs x _).mpr ⟨h1, h2⟩
        cases k1 with
        | zero => simp at hk1
        | succ k1 =>
          rw [List.cons_append, syllable_spans_cons k1 x _
            (hnz x (by simp)) (fun y hy => hnz y (by
              rw [List.cons_append]; exact List.mem_cons_of_mem _ hy)),
            hm, List.take_left, List.drop_left]
          rw [ih _ hdk hdrop k1 (by
            simp only [List.length_append, List.length_cons] at hk1; omega)]
      rcases span_output_cases (a :: tl.take (continue_len a tl)) with e | ⟨S, e, hS⟩
      · exact key a (tl.take (continue_len a tl)) e hcov hstop2
      · refine key S [] e rfl ?_
        simp only [last_of]
        cases ((syllable_spans k (tl.drop (continue_len a tl))).map span_output).flatten with
        | nil => rfl
        | cons y ys =>
          simp only [stops_before, Bool.or_eq_true, decide_eq_true_eq]
          exact Or.inr (boundary_of_syllable S y hS).1

/-- The expected output of the expected output of a string is the expected
output of the string. -/
theorem expected_output_idem (w : List Nat) (hw : ∀ c ∈ w, c ≠ 0) :
    expected_output (expected_output w) = expected_output w := by
  unfold expected_output
  rw [syllable_spans_output w.length w (le_refl _) hw _ (le_refl _), List.map_map]
  congr 1
  apply List.map_congr_left
  intro span _
  exact span_output_idem span

/-- C21: for a source `w` of non-zero codepoints followed by a terminator,
read with `srclen = -1` or `srclen = |w|`, and a capacity `destlen ≥ |w|`,
the converter returns a count `r` and an output, the first `r` codepoints of
its destination; run again on that output followed by a terminator, with the
same capacity, it returns the same count `r` and writes the same output. -/
theorem C21_conversion_idempotent (dest dest2 w rest rest2 : List Nat)
    (destlen srclen : Int) (hw : ∀ c ∈ w, c ≠ 0)
    (hs : srclen = -1 ∨ srclen = (w.length : Int))
    (hd : (w.length : Int) ≤ destlen) (hlen : destlen ≤ dest.length)
    (hlen2 : destlen ≤ dest2.length) :
    ∃ (r : Int) (buf log : List Nat),
      hangul_jamos_to_syllables dest destlen (w ++ 0 :: rest) srclen = some (r, buf, log) ∧
      0 ≤ r ∧
      ∀ srclen2 : Int, srclen2 = -1 ∨ srclen2 = r →
        hangul_jamos_to_syllables dest2 destlen (buf.take r.toNat ++ 0 :: rest2) srclen2
          = some (r, buf.take r.toNat ++ dest2.drop r.toNat, log) := by
  have hle : (expected_output w).length ≤ w.length := spans_output_length_le _ _
  have hnz : ∀ c ∈ expected_output w, c ≠ 0 := spans_output_ne_zero _ w hw
  obtain ⟨out, hout, h⟩ := hangul_jamos_to_syllables_terminated dest w rest destlen srclen hw
    (by omega) (by omega) hlen
  rw [List.take_of_length_le (by omega)] at hout
  rw [hout] at h
  refine ⟨_, _, _, h, by omega, ?_⟩
  intro srclen2 hs2
  simp only [Int.toNat_ofNat, List.take_left]
  obtain ⟨out2, hout2, h2⟩ := hangul_jamos_to_syllables_terminated dest2 (expected_output w)
    rest2 destlen srclen2 hnz (by omega) (by omega) hlen2
  rw [expected_output_idem w hw, List.take_of_length_le (by omega)] at hout2
  rw [hout2] at h2
  exact h2

/-- Witness of C21: a string of a composing span, a compatibility letter
and a span that does not compose. -/
theorem C21_conversion_idempotent_witness :
    ∃ (r : Int) (buf log : List Nat),
      hangul_jamos_to_syllables [7, 7, 7, 7, 7, 7] 6
        ([0x1100, 0x1161, 0x11a8, 0x3131, 0x11a8, 0x11a8] ++ 0 :: []) (-1)
          = some (r, buf, log) ∧
      0 ≤ r ∧
      ∀ srclen2 : Int, srclen2 = -1 ∨ srclen2 = r →
        hangul_jamos_to_syllables [9, 9, 9, 9, 9, 9] 6 (buf.take r.toNat ++ 0 :: [8]) srclen2
          = some (r, buf.take r.toNat ++ [9, 9, 9, 9, 9, 9].drop r.toNat, log) :=
  C21_conversion_idempotent [7, 7, 7, 7, 7, 7] [9, 9, 9, 9, 9, 9]
    [0x1100, 0x1161, 0x11a8, 0x3131, 0x11a8, 0x11a8] [] [8] 6 (-1)
    (by decide) (by decide) (by decide) (by decide) (by decide)

end Hangul
